import Mathlib

/-!
Shallow embedding of the AutoScholar front-end core logic:
`extractPoints`, `computeDiffs`, `buildFallbackEvidenceGraph`
(src/frontend/src/pages/HomePage.jsx) and the fallback recommendation
computation `compute` (src/unnamed/part_000).

Modelling conventions:
* JavaScript string-or-absent fields are `Option String`; `none` models
  `undefined`/`null`/missing.  `String(undefined)` is `"undefined"`.
* JavaScript truthiness on such fields: `none` and `some ""` are falsy.
* JavaScript numbers appearing in the embedding-similarity matrix are
  modelled as `Rat` (the claims under study do not depend on binary
  floating-point rounding); matrix entries can also be `null`, a string,
  or `undefined`, via `JsVal`.
* Functions that can throw a `TypeError` return `Except String _`.
* `strToLower` models `String.prototype.toLowerCase` (they agree on
  ASCII, which is all the comparison keys exercised here use).
-/

/-- JS truthiness of an optional string field (`none`/`""` are falsy). -/
def truthyS (o : Option String) : Bool :=
  match o with
  | none => false
  | some s => s != ""

/-- JS `a || b` restricted to optional string fields. -/
def jsOrS (a b : Option String) : Option String :=
  if truthyS a then a else b

/-- JS `String(x)` on an optional string field; `String(undefined) = "undefined"`. -/
def jsString (o : Option String) : String :=
  match o with
  | none => "undefined"
  | some s => s

/-- `String.prototype.toLowerCase`, as a structural character map
(core's `String.toLower` is extensionally the same but is defined by
well-founded recursion, which the kernel cannot evaluate). -/
def strToLower (s : String) : String :=
  String.mk (s.data.map Char.toLower)

/-- The character class `\s` of JS regexes (WhiteSpace ∪ LineTerminator). -/
def isJsWs (c : Char) : Bool :=
  c = ' ' || c = '\t' || c = '\n' || c = '\r' ||
  c.val = 0x0b || c.val = 0x0c || c.val = 0xa0 || c.val = 0x1680 ||
  (0x2000 ≤ c.val && c.val ≤ 0x200a) ||
  c.val = 0x2028 || c.val = 0x2029 || c.val = 0x202f ||
  c.val = 0x205f || c.val = 0x3000 || c.val = 0xfeff

/-- JS `String.prototype.length` counts UTF-16 code units. -/
def jsLen (l : List Char) : Nat :=
  (l.map (fun c => if c.val ≥ 0x10000 then 2 else 1)).sum

/-- A value that can sit in the `metrics.embedding_similarity` matrix. -/
inductive JsVal where
  | undef : JsVal
  | null : JsVal
  | num : Rat → JsVal
  | str : String → JsVal
deriving DecidableEq

/-- Zero-pads a fractional part to three digits. -/
def pad3 (n : Nat) : String :=
  if n < 10 then "00" ++ toString n
  else if n < 100 then "0" ++ toString n
  else toString n

/-- `Number.prototype.toFixed(3)`: sign of the argument, then the integer
chosen closest to `|x|·1000` (ties upward), split at three decimals. -/
def toFixed3 (q : Rat) : String :=
  let sgn := if q < 0 then "-" else ""
  let a : Rat := if q < 0 then -q else q
  let n : Int := (a * 1000 + 1/2).floor
  let m : Nat := n.toNat
  sgn ++ toString (m / 1000) ++ "." ++ pad3 (m % 1000)

/-!
## PointExtractor — `extractPoints` (HomePage.jsx lines 417-427)

`text.split(/\n|\r|(?<=[\.\?\!])\s+/)`: a separator is a single `\n`, a
single `\r`, or a maximal whitespace run whose position is immediately
preceded (in the original string) by `.`, `?` or `!`.  The alternation is
ordered, so a `\n` or `\r` is always consumed as a single-character
separator even inside such a run; the remaining run whitespace then fails
the lookbehind and stays attached to the following fragment (and is
trimmed later), exactly as in the JS regex.
-/

/-- Is `prev` one of the lookbehind characters `[\.\?\!]`? -/
def isSentEnd (prev : Option Char) : Bool :=
  prev = some '.' || prev = some '?' || prev = some '!'

/-- The splitting scan.  `mode = true` means we are inside a whitespace
separator run (third regex alternative); `prev` is the character
immediately before the scan position in the original string; `cur` is the
current fragment accumulated in reverse. -/
def splitGo (mode : Bool) (prev : Option Char) (cur : List Char) :
    List Char → List (List Char)
  | [] => [cur.reverse]
  | c :: rs =>
    if mode then
      if isJsWs c then splitGo true (some c) cur rs
      else splitGo false (some c) [c] rs
    else
      if c = '\n' ∨ c = '\r' then cur.reverse :: splitGo false (some c) [] rs
      else if isJsWs c ∧ isSentEnd prev then cur.reverse :: splitGo true (some c) [] rs
      else splitGo false (some c) (c :: cur) rs

/-- `text.split(/\n|\r|(?<=[\.\?\!])\s+/)` on the character list. -/
def splitRaw (l : List Char) : List (List Char) :=
  splitGo false none [] l

/-- `String.prototype.trim` (strips `isJsWs` characters at both ends). -/
def trimChars (l : List Char) : List Char :=
  ((l.dropWhile isJsWs).reverse.dropWhile isJsWs).reverse

/-- The character class of `/^[-•\s]+/`. -/
def isBulletLead (c : Char) : Bool :=
  c = '-' || c = '•' || isJsWs c

/-- `s.replace(/^[-•\s]+/, '')`. -/
def stripLead (l : List Char) : List Char :=
  l.dropWhile isBulletLead

/-- The fragments of `extractPoints` before the final length filter:
split, trim, drop empty fragments (`filter(Boolean)`), strip leading
bullet markers. -/
def processedFrags (s : String) : List (List Char) :=
  (((splitRaw s.data).map trimChars).filter (fun f => !f.isEmpty)).map stripLead

/-- `extractPoints` (HomePage.jsx lines 417-427).  The argument is
`none` for a null-equivalent input; `if (!text) return []` also catches
the empty string. -/
def extractPoints (text : Option String) : List String :=
  match text with
  | none => []
  | some s =>
    if s = "" then []
    else ((processedFrags s).filter (fun f => jsLen f > 20)).map (fun f => String.mk f)

/-!
## Data model for the comparison dialog (HomePage.jsx)
-/

/-- One element of `compareResult.papers` (fields read by `computeDiffs`). -/
structure BackendPaper where
  paper_id : Option String
  paperId : Option String
  summary : Option String
deriving DecidableEq

/-- The `papers` field of a comparison result.  The backend sends an
array, but the field can also be missing or hold a non-array value (the
guard `!compareResult.papers` only tests truthiness, so a truthy
non-array reaches `.map`, which throws). -/
inductive PapersField where
  | missing : PapersField
  | notArray (truthyVal : Bool) : PapersField
  | arr (ps : List BackendPaper) : PapersField
deriving DecidableEq

/-- A node of an evidence graph. -/
structure GNode where
  id : String
  title : String
deriving DecidableEq

/-- The `meta` map of an evidence record. -/
structure EvMeta where
  similarity : JsVal
  shared_keywords : List String
deriving DecidableEq

/-- One evidence record attached to an edge. -/
structure EvRec where
  ref_id : String
  label : String
  meta : EvMeta
deriving DecidableEq

/-- A directed edge of an evidence graph. -/
structure GEdge where
  source : String
  target : String
  relation : String
  evidence : List EvRec
deriving DecidableEq

/-- An evidence graph (`{nodes, edges}`). -/
structure EvGraph where
  nodes : List GNode
  edges : List GEdge
deriving DecidableEq

/-- The `metrics` field of a comparison result. -/
structure Metrics where
  embedding_similarity : Option (List (List JsVal))
  keyword_overlap : Option (List (List JsVal))
deriving DecidableEq

/-- A backend comparison result (fields read by the two functions). -/
structure CompareResult where
  papers : PapersField
  evidence_graph : Option EvGraph
  metrics : Option Metrics
deriving DecidableEq

/-- A selected paper as used by the comparison page. -/
structure SelPaper where
  id : Option String
  title : Option String
  name : Option String
  abstract : Option String
  summary : Option String
deriving DecidableEq

/-!
## EvidenceGraphBuilder — `buildFallbackEvidenceGraph` (HomePage.jsx 354-388)
-/

/-- `metrics.embedding_similarity || null` after `compareResult.metrics || {}`. -/
def embOf (c : CompareResult) : Option (List (List JsVal)) :=
  match c.metrics with
  | none => none
  | some m => m.embedding_similarity

/-- `emb && emb[i] && typeof emb[i][j] !== 'undefined'` yields the entry
`emb[i][j]` (a missing row or missing entry is `undefined`, hence absent;
an explicitly `undefined` entry is filtered by the caller). -/
def simEntry (emb : Option (List (List JsVal))) (i j : Nat) : Option JsVal :=
  match emb with
  | none => none
  | some m =>
    match m.get? i with
    | none => none
    | some row => row.get? j

/-- The label and `meta.similarity` value computed for the pair `(i, j)`:
`label = 'Semantic relation'` and `sim = null` unless the matrix has a
defined entry; a defined entry is formatted with `toFixed(3)` when it has
a `toFixed` method (a number), else via `String(sim)`; reading `.toFixed`
of a `null` entry throws a `TypeError`. -/
def pairLabelSim (emb : Option (List (List JsVal))) (i j : Nat) :
    Except String (String × JsVal) :=
  match simEntry emb i j with
  | some v =>
    match v with
    | .undef => .ok ("Semantic relation", .null)
    | .null => .error "TypeError: Cannot read properties of null (reading toFixed)"
    | .num q => .ok ("Semantic similarity " ++ toFixed3 q, .num q)
    | .str s => .ok ("Semantic similarity " ++ s, .str s)
  | none => .ok ("Semantic relation", .null)

/-- The node synthesized for a selected paper:
`{ id: String(s.id), title: s.title || s.name || String(s.id) }`. -/
def nodeOf (s : SelPaper) : GNode :=
  { id := jsString s.id
    title := (jsOrS s.title (jsOrS s.name (some (jsString s.id)))).getD "" }

/-- The two directed edges pushed for the pair `(i, j)`; both share the
single evidence record (`shared_keywords` is always set to `[]` —
the `keyword_overlap` branch also assigns `shared = []`). -/
def pairEdges (nodes : List GNode) (emb : Option (List (List JsVal)))
    (i j : Nat) : Except String (List GEdge) :=
  match pairLabelSim emb i j with
  | .error e => .error e
  | .ok (label, sim) =>
    let ni := ((nodes.get? i).getD ⟨"", ""⟩).id
    let nj := ((nodes.get? j).getD ⟨"", ""⟩).id
    let ev : List EvRec :=
      [⟨"client:semantic:" ++ toString i ++ "-" ++ toString j, label, ⟨sim, []⟩⟩]
    .ok [⟨ni, nj, "semantic_similarity", ev⟩, ⟨nj, ni, "semantic_similarity", ev⟩]

/-- The index pairs `(i, j)` with `i < j < k`, in the order of the nested
loops `for i; for j = i+1`. -/
def pairsUpTo (k : Nat) : List (Nat × Nat) :=
  (List.range k).flatMap (fun i => ((List.range k).filter (fun j => i < j)).map (fun j => (i, j)))

/-- Sequential evaluation of a fallible computation over a list,
aborting at the first error — the semantics of the JS `for` loops, which
push results in order and propagate the first thrown exception. -/
def exSeq {α β : Type} (f : α → Except String β) : List α → Except String (List β)
  | [] => .ok []
  | x :: xs =>
    match f x with
    | .error e => .error e
    | .ok y =>
      match exSeq f xs with
      | .error e => .error e
      | .ok ys => .ok (y :: ys)

/-- The fallback synthesis branch (HomePage.jsx 361-387). -/
def synthGraph (c : CompareResult) (selected : List SelPaper) : Except String EvGraph :=
  let nodes := selected.map nodeOf
  let emb := embOf c
  match exSeq (fun p => pairEdges nodes emb p.1 p.2) (pairsUpTo nodes.length) with
  | .error e => .error e
  | .ok ess => .ok ⟨nodes, ess.flatten⟩

/-- `buildFallbackEvidenceGraph` (HomePage.jsx 354-388). -/
def buildFallbackEvidenceGraph (cr : Option CompareResult)
    (selected : List SelPaper) : Except String EvGraph :=
  match cr with
  | none => .ok ⟨[], []⟩
  | some c =>
    match c.evidence_graph with
    | some g => if g.edges.length > 0 then .ok g else synthGraph c selected
    | none => synthGraph c selected

/-!
## DiffEngine — `computeDiffs` (HomePage.jsx 430-461)
-/

/-- The coerced id of a backend paper entry:
`String(p.paper_id || p.paperId || p.paper_id || p.paper_id)`. -/
def backendCoercedId (p : BackendPaper) : String :=
  jsString (jsOrS p.paper_id (jsOrS p.paperId (jsOrS p.paper_id p.paper_id)))

/-- `per`: the backend entries reduced to `{id, text}` with
`text = p.summary || ''`. -/
def perOf (ps : List BackendPaper) : List (String × String) :=
  ps.map (fun p => (backendCoercedId p, (jsOrS p.summary (some "")).getD ""))

/-- One aligned entry `{id, title, text}`. -/
structure Aligned where
  id : String
  title : Option String
  text : String
deriving DecidableEq

/-- `aligned` (HomePage.jsx 434-437): per-selected-paper text resolution. -/
def alignedOf (ps : List BackendPaper) (selected : List SelPaper) : List Aligned :=
  let per := perOf ps
  selected.map (fun s =>
    let sid := jsString s.id
    match per.find? (fun x => x.1 == sid) with
    | some x => ⟨sid, jsOrS s.title s.name, x.2⟩
    | none => ⟨sid, jsOrS s.title s.name, (jsOrS s.abstract (jsOrS s.summary (some ""))).getD ""⟩)

/-- A `sentenceMap` entry: normalized key, first-seen display text, and
the insertion-ordered set of owning paper ids. -/
structure SEntry where
  key : String
  text : String
  owners : List String
deriving DecidableEq

/-- Adding one extracted point for paper `pid` to the map (insertion
ordered; the owners `Set` is an insertion-ordered deduplicated list). -/
def addPoint (m : List SEntry) (pid : String) (pt : String) : List SEntry :=
  let key := strToLower pt
  let m' := if m.any (fun e => e.key == key) then m else m ++ [⟨key, pt, []⟩]
  m'.map (fun e =>
    if e.key == key then
      { e with owners := if pid ∈ e.owners then e.owners else e.owners ++ [pid] }
    else e)

/-- The accumulated `sentenceMap` over all aligned entries. -/
def buildSentenceMap (aligned : List Aligned) : List SEntry :=
  aligned.foldl
    (fun m a => (extractPoints (some a.text)).foldl (fun m2 pt => addPoint m2 a.id pt) m) []

/-- A JS object with sequence values, as an insertion-ordered
association list with unique keys.  `objSet` mirrors `obj[k] = v`,
`objPush` mirrors `obj[k].push(t)` (no-op when the key is absent, which
never happens in `computeDiffs`), `objLookup` mirrors `obj[k]`. -/
def objSet (m : List (String × List String)) (k : String) (v : List String) :
    List (String × List String) :=
  if m.any (fun e => e.1 == k) then m.map (fun e => if e.1 == k then (k, v) else e)
  else m ++ [(k, v)]

/-- `obj[k].push(t)` on the association-list object. -/
def objPush (m : List (String × List String)) (k : String) (t : String) :
    List (String × List String) :=
  m.map (fun e => if e.1 == k then (e.1, e.2 ++ [t]) else e)

/-- `obj[k]` on the association-list object. -/
def objLookup (m : List (String × List String)) (k : String) :
    Option (List String) :=
  (m.find? (fun e => e.1 == k)).map (fun e => e.2)

/-- The `{common, unique}` output of `computeDiffs`. -/
structure DiffResult where
  common : List String
  unique : List (String × List String)
deriving DecidableEq

/-- The classification loop body (HomePage.jsx 453-459): an entry owned
by all `n` papers goes to `common`; an entry with a single owner is
pushed onto that owner's `unique` sequence; anything else is dropped. -/
def classifyStep (n : Nat) (acc : List String × List (String × List String))
    (e : SEntry) : List String × List (String × List String) :=
  if e.owners.length = n then (acc.1 ++ [e.text], acc.2)
  else if e.owners.length = 1 then (acc.1, objPush acc.2 (e.owners.headD "") e.text)
  else acc

/-- The diff computation on the aligned entries (map build, `unique`
initialization, classification loop). -/
def diffsCore (aligned : List Aligned) : DiffResult :=
  let m := buildSentenceMap aligned
  let u0 := aligned.foldl (fun u a => objSet u a.id []) []
  let r := m.foldl (classifyStep aligned.length) ([], u0)
  ⟨r.1, r.2⟩

/-- `computeDiffs` (HomePage.jsx 430-461).  `!compareResult ||
!compareResult.papers` returns the empty result; a truthy non-array
`papers` value reaches `.map`, which throws. -/
def computeDiffs (cr : Option CompareResult) (selected : List SelPaper) :
    Except String DiffResult :=
  match cr with
  | none => .ok ⟨[], []⟩
  | some c =>
    match c.papers with
    | .missing => .ok ⟨[], []⟩
    | .notArray t =>
      if t then .error "TypeError: compareResult.papers.map is not a function"
      else .ok ⟨[], []⟩
    | .arr ps => .ok (diffsCore (alignedOf ps selected))

/-!
## RecommendationAggregator — the fallback branch of `compute`
(src/unnamed/part_000 lines 357-408)

The backend-success path and the network layer are external
collaborators; the per-seed search responses are therefore a parameter
(`none` models a failed fetch, as in `.catch(() => null)`).
-/

/-- A paper as handled by the recommendation merge. -/
structure RecPaper where
  id : Option String
  paper_id : Option String
  doi : Option String
  title : Option String
deriving DecidableEq

/-- A search-history entry. -/
structure HistEntry where
  query : Option String
deriving DecidableEq

/-- The profile fields read by the fallback computation. -/
structure Profile where
  savedPapers : Option (List RecPaper)
  searchHistory : Option (List HistEntry)
deriving DecidableEq

/-- The corpus: truthy saved-paper titles, then truthy queries of
`searchHistory.slice(0, 10)`. -/
def corpusTexts (prof : Profile) : List String :=
  ((prof.savedPapers.getD []).filterMap (fun p => if truthyS p.title then p.title else none)) ++
    (((prof.searchHistory.getD []).take 10).filterMap
      (fun h => if truthyS h.query then h.query else none))

/-- ASCII alphanumeric (the class `[A-Za-z0-9]`). -/
def isAlnum (c : Char) : Bool :=
  ('a' ≤ c && c ≤ 'z') || ('A' ≤ c && c ≤ 'Z') || ('0' ≤ c && c ≤ '9')

/-- The maximal alphanumeric runs of a character list, in order.
`t.split(/[^A-Za-z0-9]+/)` can additionally produce empty fragments at
the ends; those never pass the `length > 3` filter, so they are elided. -/
def alnumRunsGo (cur : List Char) : List Char → List (List Char)
  | [] => if cur.isEmpty then [] else [cur.reverse]
  | c :: rs =>
    if isAlnum c then alnumRunsGo (c :: cur) rs
    else if cur.isEmpty then alnumRunsGo [] rs
    else cur.reverse :: alnumRunsGo [] rs

/-- The tokens of one corpus text. -/
def tokensOf (t : String) : List String :=
  (alnumRunsGo [] t.data).map (fun l => String.mk l)

/-- The stopword list of the fallback computation. -/
def stopwords : List String :=
  ["using", "based", "paper", "study", "approach", "model", "method"]

/-- `w.length > 3 && !stopwords.includes(w)`. -/
def keepToken (w : String) : Bool :=
  w.length > 3 && !(stopwords.contains w)

/-- `freq[w] = (freq[w] || 0) + 1` on the insertion-ordered object. -/
def freqAdd (m : List (String × Nat)) (w : String) : List (String × Nat) :=
  if m.any (fun e => e.1 == w) then
    m.map (fun e => if e.1 == w then (e.1, e.2 + 1) else e)
  else m ++ [(w, 1)]

/-- The `freq` object after processing the whole corpus (keys in
insertion order). -/
def freqOf (prof : Profile) : List (String × Nat) :=
  (corpusTexts prof).foldl
    (fun m t => (tokensOf t).foldl
      (fun m2 tok => let w := strToLower tok; if keepToken w then freqAdd m2 w else m2) m) []

/-- The value of a digit string (the canonical-numeric-string reading
used by JS integer-index property keys). -/
def digitsToNat (l : List Char) : Nat :=
  l.foldl (fun n c => n * 10 + (c.toNat - '0'.toNat)) 0

/-- The numeric value of a digit string, used to order integer-index
keys. -/
def keyNumVal (s : String) : Nat := digitsToNat s.data

/-- Is `s` an integer-index property key in the sense of JS
`[[OwnPropertyKeys]]`: all digits, no leading zero (except `"0"`
itself), value at most `2^53 - 1`. -/
def isIntegerIndexKey (s : String) : Bool :=
  !s.data.isEmpty && s.data.all (fun c => '0' ≤ c && c ≤ '9') &&
    (s == "0" || s.data.headD '0' != '0') &&
    (keyNumVal s ≤ 9007199254740991)

/-- `Object.entries(freq)`: integer-index keys first, in ascending
numeric order, then the remaining keys in insertion order. -/
def jsEntriesOrder (m : List (String × Nat)) : List (String × Nat) :=
  (List.insertionSort (fun a b => keyNumVal a.1 ≤ keyNumVal b.1)
      (m.filter (fun e => isIntegerIndexKey e.1))) ++
    m.filter (fun e => !isIntegerIndexKey e.1)

/-- The total order realizing a stable sort by descending count: higher
count first; on equal counts, smaller original position first.  The
first component of an element is its position in the input list. -/
def recRankOrd (a b : Nat × (String × Nat)) : Prop :=
  b.2.2 < a.2.2 ∨ (a.2.2 = b.2.2 ∧ a.1 ≤ b.1)

instance : DecidableRel recRankOrd := fun a b =>
  show Decidable (b.2.2 < a.2.2 ∨ (a.2.2 = b.2.2 ∧ a.1 ≤ b.1)) from inferInstance

/-- `entries.sort((a, b) => b[1] - a[1])`: `Array.prototype.sort` is
stable, and a stable sort by descending count is exactly the sort of the
position-annotated list by the total order `recRankOrd`. -/
def jsSortByCountDesc (m : List (String × Nat)) : List (String × Nat) :=
  (List.insertionSort recRankOrd m.enum).map Prod.snd

/-- The `topics` of the fallback computation:
`Object.entries(freq).sort((a,b) => b[1]-a[1]).slice(0, 8).map(([k]) => k)`. -/
def fallbackTopics (prof : Profile) : List String :=
  ((jsSortByCountDesc (jsEntriesOrder (freqOf prof))).take 8).map Prod.fst

/-- `String(p.id ?? p.paper_id ?? p.doi ?? p.title)` (nullish chain). -/
def derivedId (p : RecPaper) : String :=
  jsString (p.id <|> p.paper_id <|> p.doi <|> p.title)

/-- `new Set((prof.savedPapers || []).map(p => String(p.id)))`. -/
def savedIdsOf (prof : Profile) : List String :=
  (prof.savedPapers.getD []).map (fun p => jsString p.id)

/-- One per-seed search response body. -/
structure SearchRes where
  results : Option (List RecPaper)
  papers : Option (List RecPaper)
deriving DecidableEq

/-- `Array.isArray(res.results) ? res.results : (res.results || res.papers || [])`. -/
def resList (r : SearchRes) : List RecPaper :=
  match r.results with
  | some l => l
  | none => r.papers.getD []

/-- The merge loop (part_000 lines 391-400): skip null responses, add
each paper unless its derived id is a saved id (`String(p.id)` keys) or
already among the candidates' derived ids. -/
def mergeCandidates (saved : List String) (results : List (Option SearchRes)) :
    List RecPaper :=
  results.foldl
    (fun acc r =>
      match r with
      | none => acc
      | some res =>
        (resList res).foldl
          (fun acc2 p =>
            let pid := derivedId p
            if saved.contains pid || acc2.any (fun cp => derivedId cp == pid) then acc2
            else acc2 ++ [p]) acc) []

/-- The fallback recommendation paper list:
`candidatePapers.slice(0, 10)`. -/
def fallbackPapers (prof : Profile) (results : List (Option SearchRes)) :
    List RecPaper :=
  (mergeCandidates (savedIdsOf prof) results).take 10

/-!
## General helper lemmas
-/

/-- The head surviving a `dropWhile` fails the dropped predicate. -/
theorem head?_dropWhile_not {α : Type} {p : α → Bool} :
    ∀ (l : List α) {c : α}, (l.dropWhile p).head? = some c → p c = false := by
  intro l
  induction l with
  | nil => intro c h; simp [List.dropWhile] at h
  | cons a t ih =>
    intro c h
    by_cases hp : p a
    · rw [List.dropWhile_cons_of_pos hp] at h
      exact ih h
    · rw [List.dropWhile_cons_of_neg hp] at h
      simp only [List.head?_cons, Option.some.injEq] at h
      subst h
      simpa using hp

/-!
## Claim C5 — `extractPoints` output discipline
-/

/-- Claim C5: for every input string, every fragment `extractPoints`
returns has (UTF-16) length strictly greater than 20 and starts with no
leading bullet marker (hyphen, bullet character, or whitespace); the
returned fragments preserve the relative order of their occurrence in
the input (they form a sublist of the in-order processed fragments);
and the empty string and a null-equivalent input both yield the empty
sequence. -/
theorem extractPoints_spec :
    extractPoints none = [] ∧ extractPoints (some "") = [] ∧
    ∀ s : String,
      ((extractPoints (some s)).map String.data).Sublist (processedFrags s) ∧
      ∀ p ∈ extractPoints (some s), 20 < jsLen p.data ∧
        ∀ c, p.data.head? = some c → isBulletLead c = false := by
  refine ⟨rfl, rfl, fun s => ?_⟩
  by_cases hs : s = ""
  · subst hs
    constructor
    · simp [extractPoints]
    · intro p hp
      simp [extractPoints] at hp
  · constructor
    · have he : extractPoints (some s) =
          ((processedFrags s).filter (fun f => jsLen f > 20)).map (fun f => String.mk f) := by
        simp [extractPoints, hs]
      rw [he, List.map_map]
      have : (String.data ∘ fun f => String.mk f) = id := by
        funext f; rfl
      rw [this, List.map_id]
      exact List.filter_sublist _
    · intro p hp
      have he : extractPoints (some s) =
          ((processedFrags s).filter (fun f => jsLen f > 20)).map (fun f => String.mk f) := by
        simp [extractPoints, hs]
      rw [he] at hp
      obtain ⟨f, hf, hfp⟩ := List.mem_map.mp hp
      have hdata : p.data = f := by rw [← hfp]
      have hlen : jsLen f > 20 := by
        have := List.of_mem_filter hf
        simpa using this
      refine ⟨by rwa [hdata], fun c hc => ?_⟩
      have hfmem : f ∈ processedFrags s := List.mem_of_mem_filter hf
      obtain ⟨g, _, hgf⟩ := List.mem_map.mp hfmem
      rw [hdata, ← hgf] at hc
      exact head?_dropWhile_not _ hc

/-- Witness for C5 at a concrete bulleted two-line input. -/
theorem extractPoints_spec_witness :
    20 < jsLen ("Models improve performance significantly.").data ∧
    ∀ c, ("Models improve performance significantly.").data.head? = some c →
      isBulletLead c = false := by
  have h := (extractPoints_spec.2.2 "- Models improve performance significantly.\nshort").2
    "Models improve performance significantly." (by decide)
  exact ⟨h.1, h.2⟩

/-!
## Claim C2 — totality of `computeDiffs` and `buildFallbackEvidenceGraph`

The specification states both functions never fail.  The code violates
this on the very inputs the claim names: a truthy non-array `papers`
field reaches `compareResult.papers.map` (TypeError), and a present but
`null` embedding-similarity entry reaches `null.toFixed` (TypeError).
-/

/-- A comparison result whose `papers` field holds a truthy non-array
value (for example the number `5`). -/
def crNonArrayPapers : CompareResult := ⟨.notArray true, none, none⟩

/-- A comparison result whose embedding-similarity matrix has `null` at
the off-diagonal entries. -/
def crNullSimEntry : CompareResult :=
  ⟨.missing, none, some ⟨some [[JsVal.num 1, JsVal.null], [JsVal.null, JsVal.num 1]], none⟩⟩

/-- Two selected papers with ids `"1"` and `"2"`. -/
def selPairA : List SelPaper :=
  [⟨some "1", none, none, none, none⟩, ⟨some "2", none, none, none, none⟩]

/-- Claim C2 (code bug): both functions throw a `TypeError` on the
malformed inputs the claim says they degrade on — a non-array `papers`
field and a present-but-`null` embedding-similarity entry. -/
theorem totality_code_bug :
    computeDiffs (some crNonArrayPapers) [] =
      Except.error "TypeError: compareResult.papers.map is not a function" ∧
    buildFallbackEvidenceGraph (some crNullSimEntry) selPairA =
      Except.error "TypeError: Cannot read properties of null (reading toFixed)" := by
  exact ⟨rfl, rfl⟩

/-!
## Claim C3 counterexample — the synthesis branch can fail to synthesize

With a `null` embedding entry the fallback branch throws instead of
producing `k` nodes and `k*(k-1)` edges.
-/

/-- A comparison result with no evidence graph and a `null` embedding
entry at `(0, 1)`. -/
def crNullForShape : CompareResult :=
  ⟨.missing, none, some ⟨some [[JsVal.num 1, JsVal.null], [JsVal.null, JsVal.num 1]], none⟩⟩

/-- Two selected papers with ids `"a"` and `"b"`. -/
def selPairB : List SelPaper :=
  [⟨some "a", none, none, none, none⟩, ⟨some "b", none, none, none, none⟩]

/-- Counterexample to C3 as stated: for this comparison result (whose
evidence graph is absent) and two selected papers, the function does not
synthesize a 2-node, 2-edge graph — it returns no graph at all. -/
theorem buildFallback_shape_counterexample :
    buildFallbackEvidenceGraph (some crNullForShape) selPairB =
      Except.error "TypeError: Cannot read properties of null (reading toFixed)" ∧
    (buildFallbackEvidenceGraph (some crNullForShape) selPairB).isOk = false := by
  exact ⟨rfl, rfl⟩

/-!
## Support lemmas for the fallback evidence graph
-/

/-- Success characterization of `exSeq`. -/
theorem exSeq_ok_iff {α β : Type} {f : α → Except String β} :
    ∀ {l : List α} {ys : List β},
      exSeq f l = Except.ok ys ↔ List.Forall₂ (fun x y => f x = Except.ok y) l ys := by
  intro l
  induction l with
  | nil =>
    intro ys
    constructor
    · intro h
      simp [exSeq] at h
      subst h
      exact List.Forall₂.nil
    · intro h
      cases h
      rfl
  | cons x xs ih =>
    intro ys
    constructor
    · intro h
      unfold exSeq at h
      cases hfx : f x with
      | error e => rw [hfx] at h; cases h
      | ok y =>
        rw [hfx] at h
        cases hrest : exSeq f xs with
        | error e => rw [hrest] at h; cases h
        | ok ys' =>
          rw [hrest] at h
          cases h
          exact List.Forall₂.cons hfx (ih.mp hrest)
    · intro h
      cases h with
      | cons hxy hrest =>
        unfold exSeq
        rw [hxy, ih.mpr hrest]

/-- If every element succeeds, the whole sequence succeeds. -/
theorem exSeq_ok_of_forall {α β : Type} {f : α → Except String β} :
    ∀ {l : List α}, (∀ x ∈ l, ∃ y, f x = Except.ok y) →
      ∃ ys, exSeq f l = Except.ok ys := by
  intro l
  induction l with
  | nil => intro _; exact ⟨[], rfl⟩
  | cons x xs ih =>
    intro h
    obtain ⟨y, hy⟩ := h x (List.mem_cons_self x xs)
    obtain ⟨ys, hys⟩ := ih (fun z hz => h z (List.mem_cons_of_mem x hz))
    exact ⟨y :: ys, by unfold exSeq; rw [hy, hys]⟩

/-- A right element of a `Forall₂` has a related left partner. -/
theorem forall2_mem_right {α β : Type} {R : α → β → Prop} :
    ∀ {l : List α} {ys : List β}, List.Forall₂ R l ys →
      ∀ y ∈ ys, ∃ x ∈ l, R x y := by
  intro l ys h
  induction h with
  | nil => intro y hy; cases hy
  | cons hxy _ ih =>
    intro y hy
    rcases List.mem_cons.mp hy with h1 | h2
    · subst h1
      exact ⟨_, List.mem_cons_self _ _, hxy⟩
    · obtain ⟨x, hx, hr⟩ := ih y h2
      exact ⟨x, List.mem_cons_of_mem _ hx, hr⟩

/-- A left element of a `Forall₂` has a related right partner. -/
theorem forall2_mem_left {α β : Type} {R : α → β → Prop} :
    ∀ {l : List α} {ys : List β}, List.Forall₂ R l ys →
      ∀ x ∈ l, ∃ y ∈ ys, R x y := by
  intro l ys h
  induction h with
  | nil => intro x hx; cases hx
  | cons hxy _ ih =>
    intro x hx
    rcases List.mem_cons.mp hx with h1 | h2
    · subst h1
      exact ⟨_, List.mem_cons_self _ _, hxy⟩
    · obtain ⟨y, hy, hr⟩ := ih x h2
      exact ⟨y, List.mem_cons_of_mem _ hy, hr⟩

/-- Membership in the loop-pair list. -/
theorem mem_pairsUpTo {k i j : Nat} :
    (i, j) ∈ pairsUpTo k ↔ i < j ∧ j < k := by
  unfold pairsUpTo
  constructor
  · intro h
    obtain ⟨i', hi', hmem⟩ := List.mem_flatMap.mp h
    obtain ⟨j', hj', hpair⟩ := List.mem_map.mp hmem
    obtain ⟨rfl, rfl⟩ := Prod.mk.injEq .. ▸ And.intro (congrArg Prod.fst hpair) (congrArg Prod.snd hpair)
    have := List.mem_filter.mp hj'
    exact ⟨by simpa using this.2, List.mem_range.mp this.1⟩
  · intro ⟨hij, hjk⟩
    refine List.mem_flatMap.mpr ⟨i, List.mem_range.mpr (lt_trans hij hjk), ?_⟩
    refine List.mem_map.mpr ⟨j, List.mem_filter.mpr ⟨List.mem_range.mpr hjk, by simpa using hij⟩, rfl⟩

/-- Length of the inner filtered range. -/
theorem filter_range_lt_length (k i : Nat) :
    ((List.range k).filter (fun j => i < j)).length = k - (i + 1) := by
  induction k with
  | zero => simp
  | succ k ih =>
    rw [List.range_succ, List.filter_append, List.length_append, ih]
    by_cases h : i < k
    · simp only [List.filter_cons, List.filter_nil]
      rw [if_pos (by simpa using h)]
      simp only [List.length_cons, List.length_nil]
      omega
    · simp only [List.filter_cons, List.filter_nil]
      rw [if_neg (by simpa using h)]
      simp only [List.length_nil]
      omega

/-- Twice the number of index pairs is `k * (k - 1)`. -/
theorem pairsUpTo_length_two (k : Nat) :
    2 * (pairsUpTo k).length = k * (k - 1) := by
  unfold pairsUpTo
  rw [List.length_flatMap]
  have h1 : (List.map
      (List.length ∘ fun i => ((List.range k).filter (fun j => i < j)).map (fun j => (i, j)))
      (List.range k)) = (List.range k).map (fun i => k - (i + 1)) := by
    apply List.map_congr_left
    intro i _
    simp only [Function.comp_apply, List.length_map]
    exact filter_range_lt_length k i
  rw [h1]
  have h2 : ((List.range k).map (fun i => k - (i + 1))).sum
      = ∑ i ∈ Finset.range k, (k - 1 - i) := by
    have : ((List.range k).map (fun i => k - (i + 1))).sum
        = ((List.range k).map (fun i => k - 1 - i)).sum := by
      congr 1
      apply List.map_congr_left
      intro i _
      omega
    rw [this]
    rfl
  rw [h2, Finset.sum_range_reflect (fun i => i) k]
  have := Finset.sum_range_id_mul_two k
  omega

/-- No present entry of the embedding-similarity matrix is `null` (the
condition under which the synthesis loop cannot throw). -/
def noNullEmb (c : CompareResult) : Prop :=
  ∀ m, embOf c = some m → ∀ row ∈ m, ∀ v ∈ row, v ≠ JsVal.null

/-- Under `noNullEmb`, every pair's label computation succeeds. -/
theorem pairLabelSim_ok {emb : Option (List (List JsVal))}
    (h : ∀ m, emb = some m → ∀ row ∈ m, ∀ v ∈ row, v ≠ JsVal.null) (i j : Nat) :
    ∃ lv, pairLabelSim emb i j = Except.ok lv := by
  unfold pairLabelSim
  cases hse : simEntry emb i j with
  | none => exact ⟨_, rfl⟩
  | some v =>
    have hvmem : ∃ m, emb = some m ∧ ∃ row ∈ m, v ∈ row := by
      unfold simEntry at hse
      cases emb with
      | none => cases hse
      | some m =>
        dsimp only at hse
        cases hri : m.get? i with
        | none => rw [hri] at hse; cases hse
        | some row =>
          rw [hri] at hse
          exact ⟨m, rfl, row, List.get?_mem hri, List.get?_mem hse⟩
    obtain ⟨m, hm, row, hrow, hv⟩ := hvmem
    have hnn := h m hm row hrow v hv
    cases v with
    | undef => exact ⟨_, rfl⟩
    | null => exact absurd rfl hnn
    | num q => exact ⟨_, rfl⟩
    | str s => exact ⟨_, rfl⟩

/-- The explicit shape of a successful per-pair edge computation: two
directed edges sharing one evidence record built from the forward pair
indices. -/
theorem pairEdges_ok_shape {nodes : List GNode} {emb : Option (List (List JsVal))}
    {i j : Nat} {y : List GEdge} (h : pairEdges nodes emb i j = Except.ok y) :
    ∃ label sim,
      y = [⟨((nodes.get? i).getD ⟨"", ""⟩).id, ((nodes.get? j).getD ⟨"", ""⟩).id,
            "semantic_similarity",
            [⟨"client:semantic:" ++ toString i ++ "-" ++ toString j, label, ⟨sim, []⟩⟩]⟩,
          ⟨((nodes.get? j).getD ⟨"", ""⟩).id, ((nodes.get? i).getD ⟨"", ""⟩).id,
            "semantic_similarity",
            [⟨"client:semantic:" ++ toString i ++ "-" ++ toString j, label, ⟨sim, []⟩⟩]⟩] := by
  unfold pairEdges at h
  cases hpl : pairLabelSim emb i j with
  | error e => rw [hpl] at h; cases h
  | ok lv =>
    rw [hpl] at h
    obtain ⟨label, sim⟩ := lv
    simp only [Except.ok.injEq] at h
    exact ⟨label, sim, h.symm⟩

/-- A successful per-pair edge computation yields two edges. -/
theorem pairEdges_ok_length {nodes : List GNode} {emb : Option (List (List JsVal))}
    {i j : Nat} {y : List GEdge} (h : pairEdges nodes emb i j = Except.ok y) :
    y.length = 2 := by
  obtain ⟨label, sim, rfl⟩ := pairEdges_ok_shape h
  rfl

/-- Claim C3 (amended): with an evidence graph holding at least one edge
the function passes it through unchanged; otherwise — provided no
present embedding-matrix entry is `null`, since such an entry makes the
synthesis throw — it synthesizes one node per selected paper (id
string-coerced, title falling back from `title` to `name` to the id) and
exactly `k*(k-1)` directed edges, every pair appearing once in each
direction with relation `"semantic_similarity"`. -/
theorem buildFallback_passthrough_and_shape (c : CompareResult) (sel : List SelPaper) :
    (∀ g0, c.evidence_graph = some g0 → 0 < g0.edges.length →
      buildFallbackEvidenceGraph (some c) sel = Except.ok g0) ∧
    ((c.evidence_graph = none ∨ ∃ g0, c.evidence_graph = some g0 ∧ g0.edges = []) →
      noNullEmb c →
      ∃ g, buildFallbackEvidenceGraph (some c) sel = Except.ok g ∧
        g.nodes = sel.map nodeOf ∧
        g.nodes.length = sel.length ∧
        g.edges.length = sel.length * (sel.length - 1) ∧
        (∀ e ∈ g.edges, e.relation = "semantic_similarity") ∧
        (∀ i j, i < j → j < sel.length →
          (∃ e ∈ g.edges,
            e.source = ((g.nodes.get? i).getD ⟨"", ""⟩).id ∧
            e.target = ((g.nodes.get? j).getD ⟨"", ""⟩).id) ∧
          (∃ e ∈ g.edges,
            e.source = ((g.nodes.get? j).getD ⟨"", ""⟩).id ∧
            e.target = ((g.nodes.get? i).getD ⟨"", ""⟩).id))) := by
  constructor
  · intro g0 hg0 hlen
    unfold buildFallbackEvidenceGraph
    dsimp only
    rw [hg0]
    dsimp only
    rw [if_pos hlen]
  · intro hbranch hnn
    have hsyn : buildFallbackEvidenceGraph (some c) sel = synthGraph c sel := by
      unfold buildFallbackEvidenceGraph
      dsimp only
      rcases hbranch with h | ⟨g0, hg0, hempty⟩
      · rw [h]
      · rw [hg0]
        dsimp only
        rw [hempty]
        rfl
    have hok : ∀ p ∈ pairsUpTo (sel.map nodeOf).length,
        ∃ y, pairEdges (sel.map nodeOf) (embOf c) p.1 p.2 = Except.ok y := by
      intro p _
      obtain ⟨lv, hlv⟩ := pairLabelSim_ok hnn p.1 p.2
      obtain ⟨label, sim⟩ := lv
      have hpe : pairEdges (sel.map nodeOf) (embOf c) p.1 p.2 =
          Except.ok [⟨(((sel.map nodeOf).get? p.1).getD ⟨"", ""⟩).id,
                      (((sel.map nodeOf).get? p.2).getD ⟨"", ""⟩).id,
                      "semantic_similarity",
                      [⟨"client:semantic:" ++ toString p.1 ++ "-" ++ toString p.2,
                        label, ⟨sim, []⟩⟩]⟩,
                     ⟨(((sel.map nodeOf).get? p.2).getD ⟨"", ""⟩).id,
                      (((sel.map nodeOf).get? p.1).getD ⟨"", ""⟩).id,
                      "semantic_similarity",
                      [⟨"client:semantic:" ++ toString p.1 ++ "-" ++ toString p.2,
                        label, ⟨sim, []⟩⟩]⟩] := by
        unfold pairEdges
        rw [hlv]
      exact ⟨_, hpe⟩
    obtain ⟨ys, hys⟩ := exSeq_ok_of_forall hok
    have hf2 := exSeq_ok_iff.mp hys
    have hge : buildFallbackEvidenceGraph (some c) sel =
        Except.ok ⟨sel.map nodeOf, ys.flatten⟩ := by
      rw [hsyn]
      unfold synthGraph
      dsimp only
      rw [hys]
    refine ⟨⟨sel.map nodeOf, ys.flatten⟩, hge, rfl, List.length_map _ _, ?_, ?_, ?_⟩
    · -- edge count
      show ys.flatten.length = sel.length * (sel.length - 1)
      rw [List.length_flatten]
      have hconst : ys.map List.length = ys.map (fun _ => 2) := by
        apply List.map_congr_left
        intro y hy
        obtain ⟨p, _, hpe⟩ := forall2_mem_right hf2 y hy
        exact pairEdges_ok_length hpe
      rw [hconst, List.map_const', List.sum_replicate, smul_eq_mul]
      have hylen : (pairsUpTo (sel.map nodeOf).length).length = ys.length :=
        hf2.length_eq
      have h2 := pairsUpTo_length_two (sel.map nodeOf).length
      rw [List.length_map] at h2 hylen
      omega
    · -- relation
      intro e he
      obtain ⟨y, hy, hey⟩ := List.mem_flatten.mp he
      obtain ⟨p, _, hpe⟩ := forall2_mem_right hf2 y hy
      obtain ⟨label, sim, rfl⟩ := pairEdges_ok_shape hpe
      rcases List.mem_cons.mp hey with h1 | h2
      · rw [h1]
      · rcases List.mem_cons.mp h2 with h3 | h4
        · rw [h3]
        · cases h4
    · -- both directions present for each pair
      intro i j hij hjk
      have hpmem : (i, j) ∈ pairsUpTo (sel.map nodeOf).length :=
        mem_pairsUpTo.mpr ⟨hij, by rw [List.length_map]; exact hjk⟩
      obtain ⟨y, hy, hpe⟩ := forall2_mem_left hf2 (i, j) hpmem
      obtain ⟨label, sim, rfl⟩ := pairEdges_ok_shape hpe
      constructor
      · refine ⟨_, List.mem_flatten.mpr ⟨_, hy, List.mem_cons_self _ _⟩, rfl, rfl⟩
      · refine ⟨_, List.mem_flatten.mpr
          ⟨_, hy, List.mem_cons_of_mem _ (List.mem_cons_self _ _)⟩, rfl, rfl⟩

/-- Witness for the amended C3 at two selected papers with no metrics:
a 2-node, 2-edge graph is synthesized. -/
theorem buildFallback_passthrough_and_shape_witness :
    ∃ g, buildFallbackEvidenceGraph
        (some ⟨.missing, none, none⟩)
        [⟨some "p", none, none, none, none⟩, ⟨some "q", none, none, none, none⟩] =
      Except.ok g ∧ g.nodes.length = 2 ∧ g.edges.length = 2 := by
  obtain ⟨g, hg, _, hn, he, _, _⟩ :=
    (buildFallback_passthrough_and_shape ⟨.missing, none, none⟩
      [⟨some "p", none, none, none, none⟩, ⟨some "q", none, none, none, none⟩]).2
      (Or.inl rfl)
      (by intro m hm; cases hm)
  exact ⟨g, hg, by rw [hn]; rfl, by rw [he]; rfl⟩

/-- Claim C10: in every synthesized fallback evidence graph, the reverse
edge of each pair `(i, j)` with `i < j` carries the identical single
evidence record as the forward edge — both built from the forward
indices (`client:semantic:<i>-<j>`) — no evidence reference id encodes a
reverse direction, and every evidence record's metadata carries an empty
shared-keyword list. -/
theorem buildFallback_evidence_shared (c : CompareResult) (sel : List SelPaper)
    (g : EvGraph)
    (hbranch : c.evidence_graph = none ∨ ∃ g0, c.evidence_graph = some g0 ∧ g0.edges = [])
    (hok : buildFallbackEvidenceGraph (some c) sel = Except.ok g) :
    (∀ i j, i < j → j < sel.length →
      ∃ ev : List EvRec,
        (∃ e ∈ g.edges,
          e.source = ((g.nodes.get? i).getD ⟨"", ""⟩).id ∧
          e.target = ((g.nodes.get? j).getD ⟨"", ""⟩).id ∧ e.evidence = ev) ∧
        (∃ e ∈ g.edges,
          e.source = ((g.nodes.get? j).getD ⟨"", ""⟩).id ∧
          e.target = ((g.nodes.get? i).getD ⟨"", ""⟩).id ∧ e.evidence = ev) ∧
        ∃ r : EvRec, ev = [r] ∧
          r.ref_id = "client:semantic:" ++ toString i ++ "-" ++ toString j ∧
          r.meta.shared_keywords = []) ∧
    (∀ e ∈ g.edges, ∀ r ∈ e.evidence,
      r.meta.shared_keywords = [] ∧
      ∃ i j : Nat, i < j ∧
        r.ref_id = "client:semantic:" ++ toString i ++ "-" ++ toString j) := by
  have hsyn : buildFallbackEvidenceGraph (some c) sel = synthGraph c sel := by
    unfold buildFallbackEvidenceGraph
    dsimp only
    rcases hbranch with h | ⟨g0, hg0, hempty⟩
    · rw [h]
    · rw [hg0]
      dsimp only
      rw [hempty]
      rfl
  rw [hsyn] at hok
  unfold synthGraph at hok
  dsimp only at hok
  cases hex : exSeq (fun p => pairEdges (sel.map nodeOf) (embOf c) p.1 p.2)
      (pairsUpTo (sel.map nodeOf).length) with
  | error e => rw [hex] at hok; cases hok
  | ok ys =>
    rw [hex] at hok
    simp only [Except.ok.injEq] at hok
    subst hok
    have hf2 := exSeq_ok_iff.mp hex
    constructor
    · intro i j hij hjk
      have hpmem : (i, j) ∈ pairsUpTo (sel.map nodeOf).length :=
        mem_pairsUpTo.mpr ⟨hij, by rw [List.length_map]; exact hjk⟩
      obtain ⟨y, hy, hpe⟩ := forall2_mem_left hf2 (i, j) hpmem
      obtain ⟨label, sim, rfl⟩ := pairEdges_ok_shape hpe
      refine ⟨[⟨"client:semantic:" ++ toString i ++ "-" ++ toString j, label, ⟨sim, []⟩⟩],
        ⟨_, List.mem_flatten.mpr ⟨_, hy, List.mem_cons_self _ _⟩, rfl, rfl, rfl⟩,
        ⟨_, List.mem_flatten.mpr ⟨_, hy, List.mem_cons_of_mem _ (List.mem_cons_self _ _)⟩,
          rfl, rfl, rfl⟩,
        ⟨_, rfl, rfl, rfl⟩⟩
    · intro e he r hr
      obtain ⟨y, hy, hey⟩ := List.mem_flatten.mp he
      obtain ⟨p, hp, hpe⟩ := forall2_mem_right hf2 y hy
      have hplt : p.1 < p.2 := by
        have : (p.1, p.2) ∈ pairsUpTo (sel.map nodeOf).length := by
          cases p; exact hp
        exact (mem_pairsUpTo.mp this).1
      obtain ⟨label, sim, rfl⟩ := pairEdges_ok_shape hpe
      have hre : r = ⟨"client:semantic:" ++ toString p.1 ++ "-" ++ toString p.2,
          label, ⟨sim, []⟩⟩ := by
        rcases List.mem_cons.mp hey with h1 | h2
        · subst h1
          simpa using hr
        · rcases List.mem_cons.mp h2 with h3 | h4
          · subst h3
            simpa using hr
          · cases h4
      subst hre
      exact ⟨rfl, p.1, p.2, hplt, rfl⟩

/-- Witness for C10 at two selected papers and no metrics. -/
theorem buildFallback_evidence_shared_witness :
    ∃ ev : List EvRec,
      (∃ e ∈ (EvGraph.mk
          [⟨"u", "u"⟩, ⟨"v", "v"⟩]
          [⟨"u", "v", "semantic_similarity",
            [⟨"client:semantic:0-1", "Semantic relation", ⟨JsVal.null, []⟩⟩]⟩,
           ⟨"v", "u", "semantic_similarity",
            [⟨"client:semantic:0-1", "Semantic relation", ⟨JsVal.null, []⟩⟩]⟩]).edges,
        e.evidence = ev) ∧
      ∃ r : EvRec, ev = [r] ∧ r.ref_id = "client:semantic:0-1" ∧
        r.meta.shared_keywords = [] := by
  have hg : buildFallbackEvidenceGraph
      (some ⟨.missing, none, none⟩)
      [⟨some "u", none, none, none, none⟩, ⟨some "v", none, none, none, none⟩] =
      Except.ok (EvGraph.mk
        [⟨"u", "u"⟩, ⟨"v", "v"⟩]
        [⟨"u", "v", "semantic_similarity",
          [⟨"client:semantic:0-1", "Semantic relation", ⟨JsVal.null, []⟩⟩]⟩,
         ⟨"v", "u", "semantic_similarity",
          [⟨"client:semantic:0-1", "Semantic relation", ⟨JsVal.null, []⟩⟩]⟩]) := rfl
  obtain ⟨h1, _⟩ := buildFallback_evidence_shared ⟨.missing, none, none⟩
    [⟨some "u", none, none, none, none⟩, ⟨some "v", none, none, none, none⟩]
    _ (Or.inl rfl) hg
  obtain ⟨ev, ⟨e1, he1, _, _, hev1⟩, _, hr⟩ := h1 0 1 (by decide) (by decide)
  exact ⟨ev, ⟨e1, he1, hev1⟩, hr⟩

/-!
## Claim C7 — synthesized edge labels
-/

/-- Every `toFixed(3)` result contains a decimal point. -/
theorem toFixed3_has_dot (q : Rat) : '.' ∈ (toFixed3 q).data := by
  unfold toFixed3
  show '.' ∈ (((if q < 0 then "-" else "") ++ _ ++ "." ++ _).data)
  have h : ∀ a b c : String, (a ++ b ++ c).data = a.data ++ b.data ++ c.data :=
    fun a b c => rfl
  rw [h]
  refine List.mem_append.mpr (Or.inl (List.mem_append.mpr (Or.inr ?_)))
  exact List.mem_singleton.mpr rfl

/-- The claim of C7, transcribed: every evidence label of the result is
either the three-decimal-formatted similarity or exactly
`"Semantic relation"`. -/
def labelClaimC7 (c : CompareResult) (sel : List SelPaper) : Prop :=
  ∀ g, buildFallbackEvidenceGraph (some c) sel = Except.ok g →
    ∀ e ∈ g.edges, ∀ r ∈ e.evidence,
      (∃ q : Rat, r.label = "Semantic similarity " ++ toFixed3 q) ∨
        r.label = "Semantic relation"

/-- A comparison result whose embedding matrix has the non-numeric entry
`"abc"` at `(0, 1)`. -/
def crStrEntry : CompareResult :=
  ⟨.missing, none, some ⟨some [[JsVal.undef, JsVal.str "abc"]], none⟩⟩

/-- Two selected papers with ids `"1"` and `"2"` (for C7). -/
def selPairC : List SelPaper :=
  [⟨some "1", none, none, none, none⟩, ⟨some "2", none, none, none, none⟩]

/-- Counterexample to C7 as stated: a present non-numeric entry yields
the label `"Semantic similarity abc"`, which is neither a
three-decimal-formatted value nor `"Semantic relation"`. -/
theorem buildFallback_label_counterexample : ¬ labelClaimC7 crStrEntry selPairC := by
  intro h
  have hg : buildFallbackEvidenceGraph (some crStrEntry) selPairC =
      Except.ok ⟨[⟨"1", "1"⟩, ⟨"2", "2"⟩],
        [⟨"1", "2", "semantic_similarity",
          [⟨"client:semantic:0-1", "Semantic similarity abc", ⟨JsVal.str "abc", []⟩⟩]⟩,
         ⟨"2", "1", "semantic_similarity",
          [⟨"client:semantic:0-1", "Semantic similarity abc", ⟨JsVal.str "abc", []⟩⟩]⟩]⟩ := rfl
  have hr := h _ hg
    ⟨"1", "2", "semantic_similarity",
      [⟨"client:semantic:0-1", "Semantic similarity abc", ⟨JsVal.str "abc", []⟩⟩]⟩
    (List.mem_cons_self _ _)
    ⟨"client:semantic:0-1", "Semantic similarity abc", ⟨JsVal.str "abc", []⟩⟩
    (List.mem_cons_self _ _)
  rcases hr with ⟨q, hq⟩ | hrel
  · have hdata := congrArg String.data hq
    have hsplit : ("Semantic similarity abc").data =
        ("Semantic similarity ").data ++ ['a', 'b', 'c'] := by decide
    have hrhs : ("Semantic similarity " ++ toFixed3 q).data =
        ("Semantic similarity ").data ++ (toFixed3 q).data := rfl
    rw [hsplit, hrhs] at hdata
    have habc : ['a', 'b', 'c'] = (toFixed3 q).data :=
      List.append_cancel_left hdata
    have hdot := toFixed3_has_dot q
    rw [← habc] at hdot
    simp at hdot
  · exact absurd hrel (by decide)

/-- A defined matrix entry is a member of some row of the matrix. -/
theorem simEntry_mem {emb : Option (List (List JsVal))} {i j : Nat} {v : JsVal}
    (h : simEntry emb i j = some v) :
    ∃ m, emb = some m ∧ ∃ row ∈ m, v ∈ row := by
  unfold simEntry at h
  cases emb with
  | none => cases h
  | some m =>
    dsimp only at h
    cases hri : m.get? i with
    | none => rw [hri] at h; cases h
    | some row =>
      rw [hri] at h
      exact ⟨m, rfl, row, List.get?_mem hri, List.get?_mem h⟩

/-- Elimination of a successful fallback synthesis into its pair-edge
sequence. -/
theorem buildFallback_synth_ok_elim {c : CompareResult} {sel : List SelPaper}
    {g : EvGraph}
    (hbranch : c.evidence_graph = none ∨ ∃ g0, c.evidence_graph = some g0 ∧ g0.edges = [])
    (hok : buildFallbackEvidenceGraph (some c) sel = Except.ok g) :
    ∃ ys, List.Forall₂ (fun p y => pairEdges (sel.map nodeOf) (embOf c) p.1 p.2 = Except.ok y)
        (pairsUpTo (sel.map nodeOf).length) ys ∧
      g = ⟨sel.map nodeOf, ys.flatten⟩ := by
  have hsyn : buildFallbackEvidenceGraph (some c) sel = synthGraph c sel := by
    unfold buildFallbackEvidenceGraph
    dsimp only
    rcases hbranch with h | ⟨g0, hg0, hempty⟩
    · rw [h]
    · rw [hg0]
      dsimp only
      rw [hempty]
      rfl
  rw [hsyn] at hok
  unfold synthGraph at hok
  dsimp only at hok
  cases hex : exSeq (fun p => pairEdges (sel.map nodeOf) (embOf c) p.1 p.2)
      (pairsUpTo (sel.map nodeOf).length) with
  | error e => rw [hex] at hok; cases hok
  | ok ys =>
    rw [hex] at hok
    simp only [Except.ok.injEq] at hok
    exact ⟨ys, exSeq_ok_iff.mp hex, hok.symm⟩

/-- Claim C7 (amended): for embedding matrices all of whose present
entries are numbers (or `undefined`, which counts as no entry), every
synthesized pair `(i, j)` carries the label `"Semantic similarity "`
followed by the entry formatted to three decimal places when the matrix
has a numeric entry for the pair, and exactly `"Semantic relation"` when
it has none.  (A present non-numeric entry instead yields the string
coercion of the entry, and a `null` entry aborts the synthesis.) -/
theorem buildFallback_label_amended (c : CompareResult) (sel : List SelPaper)
    (hbranch : c.evidence_graph = none ∨ ∃ g0, c.evidence_graph = some g0 ∧ g0.edges = [])
    (hnum : ∀ m, embOf c = some m → ∀ row ∈ m, ∀ v ∈ row,
      (∃ q : Rat, v = JsVal.num q) ∨ v = JsVal.undef) :
    ∃ g, buildFallbackEvidenceGraph (some c) sel = Except.ok g ∧
      ∀ i j, i < j → j < sel.length →
        ∃ label : String,
          (∃ e ∈ g.edges,
            e.source = ((g.nodes.get? i).getD ⟨"", ""⟩).id ∧
            e.target = ((g.nodes.get? j).getD ⟨"", ""⟩).id ∧
            ∃ r : EvRec, e.evidence = [r] ∧ r.label = label) ∧
          ((∃ q : Rat, simEntry (embOf c) i j = some (JsVal.num q) ∧
              label = "Semantic similarity " ++ toFixed3 q) ∨
            ((simEntry (embOf c) i j = none ∨ simEntry (embOf c) i j = some JsVal.undef) ∧
              label = "Semantic relation")) := by
  have hnn : noNullEmb c := by
    intro m hm row hrow v hv
    rcases hnum m hm row hrow v hv with ⟨q, hq⟩ | hu
    · subst hq; intro h; cases h
    · subst hu; intro h; cases h
  have hok : ∀ p ∈ pairsUpTo (sel.map nodeOf).length,
      ∃ y, pairEdges (sel.map nodeOf) (embOf c) p.1 p.2 = Except.ok y := by
    intro p _
    obtain ⟨lv, hlv⟩ := pairLabelSim_ok hnn p.1 p.2
    obtain ⟨label, sim⟩ := lv
    have hpe : pairEdges (sel.map nodeOf) (embOf c) p.1 p.2 =
        Except.ok [⟨(((sel.map nodeOf).get? p.1).getD ⟨"", ""⟩).id,
                    (((sel.map nodeOf).get? p.2).getD ⟨"", ""⟩).id,
                    "semantic_similarity",
                    [⟨"client:semantic:" ++ toString p.1 ++ "-" ++ toString p.2,
                      label, ⟨sim, []⟩⟩]⟩,
                   ⟨(((sel.map nodeOf).get? p.2).getD ⟨"", ""⟩).id,
                    (((sel.map nodeOf).get? p.1).getD ⟨"", ""⟩).id,
                    "semantic_similarity",
                    [⟨"client:semantic:" ++ toString p.1 ++ "-" ++ toString p.2,
                      label, ⟨sim, []⟩⟩]⟩] := by
      unfold pairEdges
      rw [hlv]
    exact ⟨_, hpe⟩
  obtain ⟨ys, hys⟩ := exSeq_ok_of_forall hok
  have hf2 := exSeq_ok_iff.mp hys
  have hsyn : buildFallbackEvidenceGraph (some c) sel = synthGraph c sel := by
    unfold buildFallbackEvidenceGraph
    dsimp only
    rcases hbranch with h | ⟨g0, hg0, hempty⟩
    · rw [h]
    · rw [hg0]
      dsimp only
      rw [hempty]
      rfl
  have hge : buildFallbackEvidenceGraph (some c) sel =
      Except.ok ⟨sel.map nodeOf, ys.flatten⟩ := by
    rw [hsyn]
    unfold synthGraph
    dsimp only
    rw [hys]
  refine ⟨⟨sel.map nodeOf, ys.flatten⟩, hge, ?_⟩
  intro i j hij hjk
  have hpmem : (i, j) ∈ pairsUpTo (sel.map nodeOf).length :=
    mem_pairsUpTo.mpr ⟨hij, by rw [List.length_map]; exact hjk⟩
  obtain ⟨y, hy, hpe⟩ := forall2_mem_left hf2 (i, j) hpmem
  -- determine the label from the matrix entry
  cases hpl : pairLabelSim (embOf c) i j with
  | error e =>
    exfalso
    unfold pairEdges at hpe
    rw [hpl] at hpe
    cases hpe
  | ok lv =>
    obtain ⟨label, sim⟩ := lv
    have hy2 : y = [⟨(((sel.map nodeOf).get? i).getD ⟨"", ""⟩).id,
                    (((sel.map nodeOf).get? j).getD ⟨"", ""⟩).id,
                    "semantic_similarity",
                    [⟨"client:semantic:" ++ toString i ++ "-" ++ toString j,
                      label, ⟨sim, []⟩⟩]⟩,
                   ⟨(((sel.map nodeOf).get? j).getD ⟨"", ""⟩).id,
                    (((sel.map nodeOf).get? i).getD ⟨"", ""⟩).id,
                    "semantic_similarity",
                    [⟨"client:semantic:" ++ toString i ++ "-" ++ toString j,
                      label, ⟨sim, []⟩⟩]⟩] := by
      unfold pairEdges at hpe
      rw [hpl] at hpe
      simp only [Except.ok.injEq] at hpe
      exact hpe.symm
    subst hy2
    refine ⟨label,
      ⟨_, List.mem_flatten.mpr ⟨_, hy, List.mem_cons_self _ _⟩, rfl, rfl, _, rfl, rfl⟩, ?_⟩
    unfold pairLabelSim at hpl
    cases hse : simEntry (embOf c) i j with
    | none =>
      rw [hse] at hpl
      simp only [Except.ok.injEq, Prod.mk.injEq] at hpl
      exact Or.inr ⟨Or.inl rfl, hpl.1.symm⟩
    | some v =>
      rw [hse] at hpl
      obtain ⟨m, hm, row, hrow, hv⟩ := simEntry_mem hse
      cases v with
      | undef =>
        simp only [Except.ok.injEq, Prod.mk.injEq] at hpl
        exact Or.inr ⟨Or.inr rfl, hpl.1.symm⟩
      | null =>
        rcases hnum m hm row hrow _ hv with ⟨q, hq⟩ | hu
        · cases hq
        · cases hu
      | num q =>
        simp only [Except.ok.injEq, Prod.mk.injEq] at hpl
        exact Or.inl ⟨q, rfl, hpl.1.symm⟩
      | str t =>
        rcases hnum m hm row hrow _ hv with ⟨q, hq⟩ | hu
        · cases hq
        · cases hu

/-- A comparison result with a fully numeric similarity matrix. -/
def crNumEntry : CompareResult :=
  ⟨.missing, none,
    some ⟨some [[JsVal.num 1, JsVal.num (1/2)], [JsVal.num (1/2), JsVal.num 1]], none⟩⟩

/-- Two selected papers with ids `"3"` and `"4"` (for the C7 witness). -/
def selPairD : List SelPaper :=
  [⟨some "3", none, none, none, none⟩, ⟨some "4", none, none, none, none⟩]

/-- Witness for the amended C7: the pair `(0, 1)` of a numeric matrix is
labeled with the formatted similarity. -/
theorem buildFallback_label_amended_witness :
    ∃ g, buildFallbackEvidenceGraph (some crNumEntry) selPairD = Except.ok g ∧
      ∃ label : String,
        (∃ e ∈ g.edges, ∃ r : EvRec, e.evidence = [r] ∧ r.label = label) ∧
        label = "Semantic similarity " ++ toFixed3 (1/2) := by
  have hnum : ∀ m, embOf crNumEntry = some m → ∀ row ∈ m, ∀ v ∈ row,
      (∃ q : Rat, v = JsVal.num q) ∨ v = JsVal.undef := by
    intro m hm row hrow v hv
    have hm' : m = [[JsVal.num 1, JsVal.num (1/2)], [JsVal.num (1/2), JsVal.num 1]] := by
      have : embOf crNumEntry =
          some [[JsVal.num 1, JsVal.num (1/2)], [JsVal.num (1/2), JsVal.num 1]] := rfl
      rw [this] at hm
      exact (Option.some.injEq .. ▸ hm).symm
    subst hm'
    simp only [List.mem_cons, List.not_mem_nil, or_false] at hrow
    rcases hrow with rfl | rfl <;>
      · simp only [List.mem_cons, List.not_mem_nil, or_false] at hv
        rcases hv with rfl | rfl <;> exact Or.inl ⟨_, rfl⟩
  obtain ⟨g, hg, hall⟩ :=
    buildFallback_label_amended crNumEntry selPairD (Or.inl rfl) hnum
  obtain ⟨label, ⟨e, he, _, _, r, hev, hlab⟩, hcase⟩ := hall 0 1 (by decide) (by decide)
  have hentry : simEntry (embOf crNumEntry) 0 1 = some (JsVal.num (1/2)) := rfl
  rcases hcase with ⟨q, hq, hl⟩ | ⟨hnone, _⟩
  · rw [hentry] at hq
    have hq' : JsVal.num (1/2) = JsVal.num q := Option.some.injEq .. ▸ hq
    have hq2 : q = 1/2 := by
      cases hq'
      rfl
    subst hq2
    exact ⟨g, hg, label, ⟨e, he, r, hev, hlab⟩, hl⟩
  · rcases hnone with h | h <;> rw [hentry] at h <;> cases h

/-!
## Claim C4 — recommendation exclusion and deduplication
-/

/-- The invariant of the merge loop: candidate derived ids are pairwise
distinct and none is among the saved keys. -/
def mergeInv (saved : List String) (acc : List RecPaper) : Prop :=
  ((acc.map derivedId).Nodup) ∧ ∀ p ∈ acc, derivedId p ∉ saved

/-- The inner per-response fold preserves the merge invariant. -/
theorem inner_fold_inv (saved : List String) :
    ∀ (ps : List RecPaper) (acc : List RecPaper), mergeInv saved acc →
      mergeInv saved (ps.foldl
        (fun acc2 p =>
          let pid := derivedId p
          if saved.contains pid || acc2.any (fun cp => derivedId cp == pid) then acc2
          else acc2 ++ [p]) acc) := by
  intro ps
  induction ps with
  | nil => intro acc h; exact h
  | cons p ps ih =>
    intro acc h
    rw [List.foldl_cons]
    apply ih
    dsimp only
    by_cases hc : (saved.contains (derivedId p) ||
        acc.any (fun cp => derivedId cp == derivedId p)) = true
    · rw [if_pos hc]
      exact h
    · rw [if_neg hc]
      simp only [Bool.or_eq_true, not_or] at hc
      obtain ⟨hcs, hca⟩ := hc
      constructor
      · rw [List.map_append]
        refine List.Nodup.append h.1 (List.nodup_singleton _) ?_
        intro x hx hx2
        have hxp : x = derivedId p := by simpa using hx2
        subst hxp
        obtain ⟨cp, hcp, hcpid⟩ := List.mem_map.mp hx
        exact hca (List.any_eq_true.mpr ⟨cp, hcp, by simp [hcpid]⟩)
      · intro q hq
        rcases List.mem_append.mp hq with h1 | h2
        · exact h.2 q h1
        · have hqp : q = p := by simpa using h2
          subst hqp
          intro hmem
          exact hcs (List.elem_eq_true_of_mem hmem)

/-- The merged candidate list satisfies the invariant. -/
theorem mergeCandidates_inv (saved : List String) (results : List (Option SearchRes)) :
    mergeInv saved (mergeCandidates saved results) := by
  unfold mergeCandidates
  have hgen : ∀ (rs : List (Option SearchRes)) (acc : List RecPaper),
      mergeInv saved acc →
      mergeInv saved (rs.foldl
        (fun acc r =>
          match r with
          | none => acc
          | some res =>
            (resList res).foldl
              (fun acc2 p =>
                let pid := derivedId p
                if saved.contains pid || acc2.any (fun cp => derivedId cp == pid) then acc2
                else acc2 ++ [p]) acc) acc) := by
    intro rs
    induction rs with
    | nil => intro acc h; exact h
    | cons r rs ih =>
      intro acc h
      rw [List.foldl_cons]
      apply ih
      cases r with
      | none => exact h
      | some res => exact inner_fold_inv saved (resList res) acc h
  exact hgen results [] ⟨List.nodup_nil, by intro p hp; cases hp⟩

/-- Claim C4 (amended): the fallback output never includes a paper whose
derived identifier (id, else paper_id, else doi, else title) equals the
string-coercion of the `id` field of a saved paper — the saved-side key
is `String(p.id)`, not the derived chain — and the output contains no
two papers with the same derived identifier. -/
theorem recFallback_dedup_amended (prof : Profile) (results : List (Option SearchRes)) :
    ((fallbackPapers prof results).map derivedId).Nodup ∧
    ∀ p ∈ fallbackPapers prof results, derivedId p ∉ savedIdsOf prof := by
  have h := mergeCandidates_inv (savedIdsOf prof) results
  constructor
  · unfold fallbackPapers
    rw [List.map_take]
    exact h.1.sublist (List.take_sublist _ _)
  · intro p hp
    exact h.2 p ((List.take_sublist _ _).mem hp)

/-- A profile whose saved paper has only a `paper_id` (no `id`). -/
def profSavedNoId : Profile :=
  ⟨some [⟨none, some "X", none, some "Saved paper title"⟩], none⟩

/-- A search response returning a paper with the same `paper_id`. -/
def resDupX : SearchRes := ⟨some [⟨none, some "X", none, none⟩], none⟩

/-- Counterexample to C4 as stated: the saved paper and the returned
paper have the same derived identifier `"X"`, yet the returned paper is
included — the saved-papers exclusion keys on `String(p.id)` (here
`"undefined"`), not on the derived identifier. -/
theorem recFallback_exclusion_counterexample :
    fallbackPapers profSavedNoId [some resDupX] = [⟨none, some "X", none, none⟩] ∧
    derivedId ⟨none, some "X", none, none⟩ = "X" ∧
    derivedId ⟨none, some "X", none, some "Saved paper title"⟩ = "X" ∧
    ¬ (∀ p ∈ fallbackPapers profSavedNoId [some resDupX],
        ∀ sp ∈ profSavedNoId.savedPapers.getD [], derivedId p ≠ derivedId sp) := by
  refine ⟨rfl, rfl, rfl, ?_⟩
  intro h
  exact h ⟨none, some "X", none, none⟩ (by decide)
    ⟨none, some "X", none, some "Saved paper title"⟩ (by decide) rfl

/-- Witness for the amended C4 at a concrete profile and response. -/
theorem recFallback_dedup_amended_witness :
    ((fallbackPapers ⟨some [⟨some "s1", none, none, none⟩], none⟩
        [some ⟨some [⟨some "w1", none, none, none⟩, ⟨some "s1", none, none, none⟩], none⟩]).map
      derivedId).Nodup ∧
    derivedId ⟨some "w1", none, none, none⟩ ∉
      savedIdsOf ⟨some [⟨some "s1", none, none, none⟩], none⟩ := by
  have h := recFallback_dedup_amended ⟨some [⟨some "s1", none, none, none⟩], none⟩
    [some ⟨some [⟨some "w1", none, none, none⟩, ⟨some "s1", none, none, none⟩], none⟩]
  exact ⟨h.1, h.2 ⟨some "w1", none, none, none⟩ (by decide)⟩

/-!
## Claim C8 — fallback topic ranking
-/

instance : IsTotal (Nat × (String × Nat)) recRankOrd := ⟨by
  intro a b
  unfold recRankOrd
  omega⟩

instance : IsTrans (Nat × (String × Nat)) recRankOrd := ⟨by
  intro a b c hab hbc
  unfold recRankOrd at hab hbc ⊢
  omega⟩

/-- The claim's ranking, transcribed: a stable sort by descending
frequency over the *insertion-ordered* (first-seen) frequency entries,
then the first 8 keys. -/
def claimTopicsC8 (prof : Profile) : List String :=
  ((jsSortByCountDesc (freqOf prof)).take 8).map Prod.fst

/-- A profile whose saved title yields the tokens `zzzz` and `2023`. -/
def profNumericToken : Profile :=
  ⟨some [⟨none, none, none, some "zzzz 2023"⟩], none⟩

/-- Counterexample to C8 as stated: both tokens have frequency 1, and
first-seen order is `zzzz` before `2023`; but `Object.entries` enumerates
the integer-like key `"2023"` first, so the code's tie-break is not
first-seen order. -/
theorem recFallback_topics_counterexample :
    fallbackTopics profNumericToken = ["2023", "zzzz"] ∧
    claimTopicsC8 profNumericToken = ["zzzz", "2023"] ∧
    fallbackTopics profNumericToken ≠ claimTopicsC8 profNumericToken := by
  refine ⟨by decide, by decide, by decide⟩

/-- Wellformedness of one frequency entry: its key is a kept token
(length above 3, not a stopword) with positive count, and it arose as
the lower-casing of a token of some corpus text. -/
def FreqGood (all : List String) (e : String × Nat) : Prop :=
  keepToken e.1 = true ∧ 0 < e.2 ∧
    ∃ t ∈ all, ∃ tok ∈ tokensOf t, strToLower tok = e.1

/-- `freqAdd` preserves entry wellformedness. -/
theorem freqAdd_good {all : List String} {m : List (String × Nat)} {w : String}
    (hw : keepToken w = true) (hor : ∃ t ∈ all, ∃ tok ∈ tokensOf t, strToLower tok = w)
    (h : ∀ e ∈ m, FreqGood all e) :
    ∀ e ∈ freqAdd m w, FreqGood all e := by
  intro e he
  unfold freqAdd at he
  by_cases hc : m.any (fun e => e.1 == w) = true
  · rw [if_pos hc] at he
    obtain ⟨e', he', heq⟩ := List.mem_map.mp he
    by_cases h2 : e'.1 == w
    · rw [if_pos h2] at heq
      obtain ⟨hk, _, ho⟩ := h e' he'
      subst heq
      exact ⟨hk, by omega, ho⟩
    · rw [if_neg h2] at heq
      subst heq
      exact h e' he'
  · rw [if_neg hc] at he
    rcases List.mem_append.mp he with h1 | h2
    · exact h e h1
    · have : e = (w, 1) := by simpa using h2
      subst this
      exact ⟨hw, by omega, hor⟩

/-- The token-level fold preserves entry wellformedness. -/
theorem token_fold_good {all : List String} {t : String} (ht : t ∈ all) :
    ∀ (toks : List String) (m : List (String × Nat)),
      (∀ tok ∈ toks, tok ∈ tokensOf t) → (∀ e ∈ m, FreqGood all e) →
      ∀ e ∈ toks.foldl
        (fun m2 tok => let w := strToLower tok; if keepToken w then freqAdd m2 w else m2) m,
        FreqGood all e := by
  intro toks
  induction toks with
  | nil => intro m _ h; exact h
  | cons tok toks ih =>
    intro m htoks h
    rw [List.foldl_cons]
    apply ih _ (fun x hx => htoks x (List.mem_cons_of_mem _ hx))
    dsimp only
    by_cases hk : keepToken (strToLower tok) = true
    · rw [if_pos hk]
      exact freqAdd_good hk
        ⟨t, ht, tok, htoks tok (List.mem_cons_self _ _), rfl⟩ h
    · rw [if_neg hk]
      exact h

/-- Every entry of the frequency table is wellformed. -/
theorem freqOf_good (prof : Profile) :
    ∀ e ∈ freqOf prof, FreqGood (corpusTexts prof) e := by
  unfold freqOf
  have hgen : ∀ (ts : List String) (m : List (String × Nat)),
      (∀ t ∈ ts, t ∈ corpusTexts prof) →
      (∀ e ∈ m, FreqGood (corpusTexts prof) e) →
      ∀ e ∈ ts.foldl
        (fun m t => (tokensOf t).foldl
          (fun m2 tok => let w := strToLower tok; if keepToken w then freqAdd m2 w else m2) m) m,
        FreqGood (corpusTexts prof) e := by
    intro ts
    induction ts with
    | nil => intro m _ h; exact h
    | cons t ts ih =>
      intro m hts h
      rw [List.foldl_cons]
      apply ih _ (fun x hx => hts x (List.mem_cons_of_mem _ hx))
      exact token_fold_good (hts t (List.mem_cons_self _ _)) (tokensOf t) m
        (fun _ hx => hx) h
  exact hgen _ [] (fun _ hx => hx) (by intro e he; cases he)

/-- Claim C8 (amended): every counted key is a lower-cased corpus token
of length above 3 outside the stopword set with positive count, and the
topics are the first 8 keys of the unique permutation of the
`Object.entries` enumeration (integer-like keys in ascending numeric
order first, then first-seen order) sorted by descending frequency with
ties broken by enumeration position. -/
theorem recFallback_topics_amended (prof : Profile) :
    (∀ e ∈ freqOf prof, 3 < e.1.length ∧ e.1 ∉ stopwords ∧ 0 < e.2 ∧
      ∃ t ∈ corpusTexts prof, ∃ tok ∈ tokensOf t, strToLower tok = e.1) ∧
    ∃ L : List (Nat × (String × Nat)),
      L.Perm (jsEntriesOrder (freqOf prof)).enum ∧
      List.Sorted recRankOrd L ∧
      fallbackTopics prof = (L.take 8).map (fun x => x.2.1) := by
  constructor
  · intro e he
    obtain ⟨hk, hpos, hor⟩ := freqOf_good prof e he
    unfold keepToken at hk
    rw [Bool.and_eq_true] at hk
    obtain ⟨hlen, hstop⟩ := hk
    refine ⟨by simpa using hlen, ?_, hpos, hor⟩
    intro hmem
    rw [Bool.not_eq_true'] at hstop
    have h2 : stopwords.contains e.1 = true := List.elem_eq_true_of_mem hmem
    rw [h2] at hstop
    exact Bool.noConfusion hstop
  · refine ⟨List.insertionSort recRankOrd (jsEntriesOrder (freqOf prof)).enum,
      List.perm_insertionSort _ _, List.sorted_insertionSort _ _, ?_⟩
    unfold fallbackTopics jsSortByCountDesc
    rw [← List.map_take, List.map_map]
    rfl

/-- Witness for the amended C8 at a concrete profile. -/
theorem recFallback_topics_amended_witness :
    (3 < ("deep" : String).length ∧ ("deep" : String) ∉ stopwords ∧ 0 < 2 ∧
      ∃ t ∈ corpusTexts ⟨some [⟨none, none, none, some "Deep learning, deep graphs"⟩], none⟩,
        ∃ tok ∈ tokensOf t, strToLower tok = "deep") ∧
    ∃ L : List (Nat × (String × Nat)),
      L.Perm (jsEntriesOrder
        (freqOf ⟨some [⟨none, none, none, some "Deep learning, deep graphs"⟩], none⟩)).enum ∧
      List.Sorted recRankOrd L ∧
      fallbackTopics ⟨some [⟨none, none, none, some "Deep learning, deep graphs"⟩], none⟩ =
        (L.take 8).map (fun x => x.2.1) := by
  have h := recFallback_topics_amended
    ⟨some [⟨none, none, none, some "Deep learning, deep graphs"⟩], none⟩
  have hfreq : freqOf ⟨some [⟨none, none, none, some "Deep learning, deep graphs"⟩], none⟩ =
      [("deep", 2), ("learning", 1), ("graphs", 1)] := rfl
  refine ⟨h.1 ("deep", 2) ?_, h.2⟩
  rw [hfreq]
  exact List.mem_cons_self _ _

/-!
## Support lemmas for `computeDiffs` (claims C1, C6, C9)
-/

/-- `objPush` rewrites exactly the pushed key's value. -/
theorem objLookup_objPush (m : List (String × List String)) (k t P : String) :
    objLookup (objPush m k t) P =
      (objLookup m P).map (fun l => if P = k then l ++ [t] else l) := by
  induction m with
  | nil => rfl
  | cons e m ih =>
    unfold objPush at ih ⊢
    unfold objLookup at ih ⊢
    rw [List.map_cons, List.find?_cons, List.find?_cons]
    by_cases hek : e.1 = k
    · by_cases heP : e.1 = P
      · subst heP
        subst hek
        simp
      · have h1 : ((if e.1 == k then (e.1, e.2 ++ [t]) else e).1 == P) = false := by
          rw [if_pos (beq_iff_eq.mpr hek)]
          exact beq_eq_false_iff_ne.mpr heP
        have h2 : (e.1 == P) = false := beq_eq_false_iff_ne.mpr heP
        rw [h1, h2]
        exact ih
    · by_cases heP : e.1 = P
      · subst heP
        have hcond : (e.1 == k) = false := beq_eq_false_iff_ne.mpr hek
        rw [if_neg (by rw [hcond]; exact Bool.noConfusion)]
        have hself : (e.1 == e.1) = true := beq_self_eq_true e.1
        rw [hself]
        simp [hek]
      · have hcond : (e.1 == k) = false := beq_eq_false_iff_ne.mpr hek
        rw [if_neg (by rw [hcond]; exact Bool.noConfusion)]
        have h2 : (e.1 == P) = false := beq_eq_false_iff_ne.mpr heP
        rw [h2]
        exact ih

/-- `objPush` preserves the key list. -/
theorem objKeys_objPush (m : List (String × List String)) (k t : String) :
    (objPush m k t).map Prod.fst = m.map Prod.fst := by
  unfold objPush
  rw [List.map_map]
  apply List.map_congr_left
  intro e _
  show (if e.1 == k then (e.1, e.2 ++ [t]) else e).1 = e.1
  split
  · rfl
  · rfl

/-- The in-place update of `objSet` keeps every key. -/
theorem objSet_update_keys (m : List (String × List String)) (k : String)
    (v : List String) :
    (m.map (fun e => if e.1 == k then (k, v) else e)).map Prod.fst = m.map Prod.fst := by
  rw [List.map_map]
  apply List.map_congr_left
  intro e _
  show (if e.1 == k then (k, v) else e).1 = e.1
  by_cases hek : (e.1 == k) = true
  · rw [if_pos hek]
    exact (eq_of_beq hek).symm
  · rw [Bool.not_eq_true] at hek
    rw [if_neg (by rw [hek]; exact Bool.noConfusion)]

/-- The in-place update of `objSet` does not affect other keys' lookups. -/
theorem objLookup_update_ne (m : List (String × List String)) (k : String)
    (v : List String) (P : String) (hPk : P ≠ k) :
    objLookup (m.map (fun e => if e.1 == k then (k, v) else e)) P = objLookup m P := by
  induction m with
  | nil => rfl
  | cons e m ih =>
    unfold objLookup at ih ⊢
    rw [List.map_cons, List.find?_cons, List.find?_cons]
    by_cases hek : (e.1 == k) = true
    · rw [if_pos hek]
      have h1 : ((k, v).1 == P) = false :=
        beq_eq_false_iff_ne.mpr (fun h => hPk h.symm)
      have h2 : (e.1 == P) = false := by
        rw [eq_of_beq hek]
        exact beq_eq_false_iff_ne.mpr (fun h => hPk h.symm)
      rw [h1, h2]
      exact ih
    · rw [Bool.not_eq_true] at hek
      rw [if_neg (by rw [hek]; exact Bool.noConfusion)]
      by_cases heP : (e.1 == P) = true
      · rw [heP]
      · rw [Bool.not_eq_true] at heP
        rw [heP]
        exact ih

/-- The in-place update of `objSet` sets the present key's value. -/
theorem objLookup_update_eq (m : List (String × List String)) (k : String)
    (v : List String) (hany : m.any (fun e => e.1 == k) = true) :
    objLookup (m.map (fun e => if e.1 == k then (k, v) else e)) k = some v := by
  induction m with
  | nil => cases hany
  | cons e m ih =>
    unfold objLookup at ih ⊢
    rw [List.map_cons, List.find?_cons]
    by_cases hek : (e.1 == k) = true
    · rw [if_pos hek]
      have : ((k, v).1 == k) = true := beq_self_eq_true k
      rw [this]
      rfl
    · rw [Bool.not_eq_true] at hek
      rw [if_neg (by rw [hek]; exact Bool.noConfusion)]
      rw [hek]
      apply ih
      rw [List.any_cons, hek] at hany
      simpa using hany

/-- `objSet` behaves as point update / extension on lookups. -/
theorem objLookup_objSet (m : List (String × List String)) (k : String)
    (v : List String) (P : String) :
    objLookup (objSet m k v) P = if P = k then some v else objLookup m P := by
  unfold objSet
  by_cases hany : (m.any (fun e => e.1 == k)) = true
  · rw [if_pos hany]
    by_cases hPk : P = k
    · subst hPk
      rw [if_pos rfl]
      exact objLookup_update_eq m P v hany
    · rw [if_neg hPk]
      exact objLookup_update_ne m k v P hPk
  · rw [if_neg hany]
    unfold objLookup
    rw [List.find?_append]
    by_cases hPk : P = k
    · subst hPk
      have hnone : m.find? (fun e => e.1 == P) = none := by
        rw [List.find?_eq_none]
        intro e hem hek
        exact hany (List.any_eq_true.mpr ⟨e, hem, hek⟩)
      rw [hnone, if_pos rfl]
      simp [List.find?]
    · rw [if_neg hPk]
      cases hf : m.find? (fun e => e.1 == P) with
      | none =>
        rw [Option.none_or]
        have hno : ((k, v).1 == P) = false :=
          beq_eq_false_iff_ne.mpr (fun h => hPk h.symm)
        simp [List.find?, hno]
      | some e' => simp

/-- Key membership after `objSet`. -/
theorem mem_keys_objSet (m : List (String × List String)) (k : String)
    (v : List String) (P : String) :
    P ∈ (objSet m k v).map Prod.fst ↔ P ∈ m.map Prod.fst ∨ P = k := by
  unfold objSet
  by_cases hany : (m.any (fun e => e.1 == k)) = true
  · rw [if_pos hany, objSet_update_keys]
    obtain ⟨w, hwm, hwk⟩ := List.any_eq_true.mp hany
    constructor
    · exact Or.inl
    · intro h
      rcases h with h | h
      · exact h
      · subst h
        exact List.mem_map.mpr ⟨w, hwm, eq_of_beq hwk⟩
  · rw [if_neg hany, List.map_append, List.mem_append]
    constructor
    · rintro (h | h)
      · exact Or.inl h
      · right
        simpa using h
    · rintro (h | h)
      · exact Or.inl h
      · subst h
        right
        simp

/-- `objSet` preserves key distinctness. -/
theorem nodup_keys_objSet (m : List (String × List String)) (k : String)
    (v : List String) (h : (m.map Prod.fst).Nodup) :
    ((objSet m k v).map Prod.fst).Nodup := by
  unfold objSet
  by_cases hany : (m.any (fun e => e.1 == k)) = true
  · rw [if_pos hany, objSet_update_keys]
    exact h
  · rw [if_neg hany, List.map_append]
    refine List.Nodup.append h (List.nodup_singleton _) ?_
    intro x hx hx2
    have hxk : x = k := by simpa using hx2
    subst hxk
    obtain ⟨e, hem, hee⟩ := List.mem_map.mp hx
    exact hany (List.any_eq_true.mpr ⟨e, hem, beq_iff_eq.mpr hee⟩)

/-- A key is present exactly when its lookup succeeds. -/
theorem objLookup_isSome_iff (m : List (String × List String)) (P : String) :
    (∃ l, objLookup m P = some l) ↔ P ∈ m.map Prod.fst := by
  unfold objLookup
  constructor
  · intro ⟨l, hl⟩
    cases hf : m.find? (fun e => e.1 == P) with
    | none => rw [hf] at hl; cases hl
    | some e =>
      have hp := List.find?_some hf
      exact List.mem_map.mpr ⟨e, List.mem_of_find?_eq_some hf,
        eq_of_beq (by simpa using hp)⟩
  · intro h
    obtain ⟨e, hem, hee⟩ := List.mem_map.mp h
    have hsome : (m.find? (fun e => e.1 == P)).isSome :=
      List.find?_isSome.mpr ⟨e, hem, beq_iff_eq.mpr hee⟩
    cases hf : m.find? (fun e => e.1 == P) with
    | none => rw [hf] at hsome; cases hsome
    | some e' => exact ⟨e'.2, rfl⟩

/-- The predicate selecting entries pushed onto `unique[P]` by the
classification loop. -/
def uniqPred (n : Nat) (P : String) (e : SEntry) : Bool :=
  !(e.owners.length == n) && (e.owners.length == 1) && (e.owners.headD "" == P)

/-- The `common` component of the classification loop. -/
theorem classify_fst (n : Nat) :
    ∀ (es : List SEntry) (c0 : List String) (u0 : List (String × List String)),
      (es.foldl (classifyStep n) (c0, u0)).1 =
        c0 ++ (es.filter (fun e => e.owners.length == n)).map (fun e => e.text) := by
  intro es
  induction es with
  | nil =>
    intro c0 u0
    simp
  | cons e es ih =>
    intro c0 u0
    rw [List.foldl_cons]
    by_cases h1 : e.owners.length = n
    · have hstep : classifyStep n (c0, u0) e = (c0 ++ [e.text], u0) := by
        unfold classifyStep
        rw [if_pos h1]
      rw [hstep, ih]
      rw [List.filter_cons_of_pos (by simpa using h1)]
      simp
    · by_cases h2 : e.owners.length = 1
      · have hstep : classifyStep n (c0, u0) e =
            (c0, objPush u0 (e.owners.headD "") e.text) := by
          unfold classifyStep
          rw [if_neg h1, if_pos h2]
        rw [hstep, ih]
        rw [List.filter_cons_of_neg (by simpa using h1)]
      · have hstep : classifyStep n (c0, u0) e = (c0, u0) := by
          unfold classifyStep
          rw [if_neg h1, if_neg h2]
        rw [hstep, ih]
        rw [List.filter_cons_of_neg (by simpa using h1)]

/-- The classification loop preserves the `unique` key list. -/
theorem classify_keys (n : Nat) :
    ∀ (es : List SEntry) (c0 : List String) (u0 : List (String × List String)),
      ((es.foldl (classifyStep n) (c0, u0)).2).map Prod.fst = u0.map Prod.fst := by
  intro es
  induction es with
  | nil => intro c0 u0; rfl
  | cons e es ih =>
    intro c0 u0
    rw [List.foldl_cons]
    by_cases h1 : e.owners.length = n
    · have hstep : classifyStep n (c0, u0) e = (c0 ++ [e.text], u0) := by
        unfold classifyStep
        rw [if_pos h1]
      rw [hstep, ih]
    · by_cases h2 : e.owners.length = 1
      · have hstep : classifyStep n (c0, u0) e =
            (c0, objPush u0 (e.owners.headD "") e.text) := by
          unfold classifyStep
          rw [if_neg h1, if_pos h2]
        rw [hstep, ih, objKeys_objPush]
      · have hstep : classifyStep n (c0, u0) e = (c0, u0) := by
          unfold classifyStep
          rw [if_neg h1, if_neg h2]
        rw [hstep, ih]

/-- The `unique` component of the classification loop: each key's final
sequence is its initial sequence extended, in order, with the texts of
the single-owner entries owned by that key. -/
theorem classify_lookup (n : Nat) :
    ∀ (es : List SEntry) (c0 : List String) (u0 : List (String × List String)) (P : String),
      objLookup ((es.foldl (classifyStep n) (c0, u0)).2) P =
        (objLookup u0 P).map
          (fun l => l ++ ((es.filter (uniqPred n P)).map (fun e => e.text))) := by
  intro es
  induction es with
  | nil =>
    intro c0 u0 P
    cases h : objLookup u0 P <;> simp [h]
  | cons e es ih =>
    intro c0 u0 P
    rw [List.foldl_cons]
    by_cases h1 : e.owners.length = n
    · have hstep : classifyStep n (c0, u0) e = (c0 ++ [e.text], u0) := by
        unfold classifyStep
        rw [if_pos h1]
      rw [hstep, ih]
      have hln : (e.owners.length == n) = true := by simpa using h1
      have hp : uniqPred n P e = false := by
        unfold uniqPred
        rw [hln]
        rfl
      rw [List.filter_cons_of_neg (by rw [hp]; exact Bool.noConfusion)]
    · by_cases h2 : e.owners.length = 1
      · have hstep : classifyStep n (c0, u0) e =
            (c0, objPush u0 (e.owners.headD "") e.text) := by
          unfold classifyStep
          rw [if_neg h1, if_pos h2]
        rw [hstep, ih, objLookup_objPush]
        have hln : (e.owners.length == n) = false := by simpa using h1
        have hl1 : (e.owners.length == 1) = true := by simpa using h2
        by_cases hPK : P = e.owners.headD ""
        · have hhd : (e.owners.headD "" == P) = true := by simpa using hPK.symm
          have hp : uniqPred n P e = true := by
            unfold uniqPred
            rw [hln, hl1, hhd]
            rfl
          rw [List.filter_cons_of_pos (by rw [hp])]
          cases h : objLookup u0 P with
          | none => rfl
          | some l =>
            simp [h, hPK, List.append_assoc]
        · have hhd : (e.owners.headD "" == P) = false := by
            simp only [beq_eq_false_iff_ne]
            exact fun h => hPK h.symm
          have hp : uniqPred n P e = false := by
            unfold uniqPred
            rw [hln, hl1, hhd]
            rfl
          rw [List.filter_cons_of_neg (by rw [hp]; exact Bool.noConfusion)]
          cases h : objLookup u0 P with
          | none => rfl
          | some l =>
            have hPK2 : ¬P = e.owners.head?.getD "" := by simpa using hPK
            simp [h, hPK2]
      · have hstep : classifyStep n (c0, u0) e = (c0, u0) := by
          unfold classifyStep
          rw [if_neg h1, if_neg h2]
        rw [hstep, ih]
        have hl1 : (e.owners.length == 1) = false := by simpa using h2
        have hp : uniqPred n P e = false := by
          unfold uniqPred
          rw [hl1]
          simp
        rw [List.filter_cons_of_neg (by rw [hp]; exact Bool.noConfusion)]

/-- Every value in the initialized `unique` object is the empty
sequence. -/
theorem initU_values :
    ∀ (al : List Aligned) (u : List (String × List String)),
      (∀ P l, objLookup u P = some l → l = []) →
      ∀ P l, objLookup (al.foldl (fun u a => objSet u a.id []) u) P = some l → l = [] := by
  intro al
  induction al with
  | nil => intro u h; exact h
  | cons a al ih =>
    intro u h
    rw [List.foldl_cons]
    apply ih
    intro P l hl
    rw [objLookup_objSet] at hl
    by_cases hP : P = a.id
    · rw [if_pos hP] at hl
      cases hl
      rfl
    · rw [if_neg hP] at hl
      exact h P l hl

/-- Key membership in the initialized `unique` object. -/
theorem initU_mem_keys :
    ∀ (al : List Aligned) (u : List (String × List String)) (P : String),
      P ∈ ((al.foldl (fun u a => objSet u a.id []) u).map Prod.fst) ↔
        P ∈ u.map Prod.fst ∨ P ∈ al.map (fun a => a.id) := by
  intro al
  induction al with
  | nil =>
    intro u P
    simp
  | cons a al ih =>
    intro u P
    rw [List.foldl_cons, ih, mem_keys_objSet, List.map_cons, List.mem_cons]
    tauto

/-- The initialized `unique` object has distinct keys. -/
theorem initU_nodup :
    ∀ (al : List Aligned) (u : List (String × List String)),
      (u.map Prod.fst).Nodup →
      ((al.foldl (fun u a => objSet u a.id []) u).map Prod.fst).Nodup := by
  intro al
  induction al with
  | nil => intro u h; exact h
  | cons a al ih =>
    intro u h
    rw [List.foldl_cons]
    exact ih _ (nodup_keys_objSet u a.id [] h)

/-- The aligned entries carry exactly the string-coerced selected ids,
in order. -/
theorem alignedOf_ids (ps : List BackendPaper) (sel : List SelPaper) :
    (alignedOf ps sel).map (fun a => a.id) = sel.map (fun s => jsString s.id) := by
  unfold alignedOf
  rw [List.map_map]
  apply List.map_congr_left
  intro s _
  simp only [Function.comp_apply]
  cases hf : (perOf ps).find? (fun x => x.1 == jsString s.id) <;> rfl

/-- Invariant of the accumulated `sentenceMap`: keys are distinct, each
entry's key is the lower-casing of its display text, and owner sets are
nonempty, deduplicated, and drawn from the aligned ids. -/
def SMInv (ids : List String) (m : List SEntry) : Prop :=
  ((m.map (fun e => e.key)).Nodup) ∧
  ∀ e ∈ m, strToLower e.text = e.key ∧ e.owners ≠ [] ∧ e.owners.Nodup ∧
    ∀ o ∈ e.owners, o ∈ ids

/-- The owner-adding pass of `addPoint` yields the invariant, given the
pre-update wellformedness of the extended list. -/
theorem updEntries_inv {ids : List String} {m2 : List SEntry} {pid key : String}
    (hpid : pid ∈ ids)
    (hnd : (m2.map (fun e => e.key)).Nodup)
    (hprops : ∀ e ∈ m2, strToLower e.text = e.key ∧ e.owners.Nodup ∧
      ∀ o ∈ e.owners, o ∈ ids)
    (hne : ∀ e ∈ m2, (e.key == key) = false → e.owners ≠ []) :
    SMInv ids (m2.map (fun e => if e.key == key then
      { e with owners := if pid ∈ e.owners then e.owners else e.owners ++ [pid] }
      else e)) := by
  constructor
  · have hkeys : ((m2.map (fun e => if e.key == key then
        { e with owners := if pid ∈ e.owners then e.owners else e.owners ++ [pid] }
        else e)).map (fun e => e.key)) = m2.map (fun e => e.key) := by
      rw [List.map_map]
      apply List.map_congr_left
      intro e _
      show (if e.key == key then
        { e with owners := if pid ∈ e.owners then e.owners else e.owners ++ [pid] }
        else e).key = e.key
      split
      · rfl
      · rfl
    rw [hkeys]
    exact hnd
  · intro f hf
    obtain ⟨e, he, rfl⟩ := List.mem_map.mp hf
    by_cases hk : (e.key == key) = true
    · rw [if_pos hk]
      obtain ⟨ht, hndp, hsub⟩ := hprops e he
      refine ⟨ht, ?_, ?_, ?_⟩
      · by_cases hp : pid ∈ e.owners
        · rw [if_pos hp]
          exact List.ne_nil_of_mem hp
        · rw [if_neg hp]
          simp
      · by_cases hp : pid ∈ e.owners
        · rw [if_pos hp]
          exact hndp
        · rw [if_neg hp]
          refine List.Nodup.append hndp (List.nodup_singleton _) ?_
          intro x hx hx2
          have hxp : x = pid := by simpa using hx2
          subst hxp
          exact hp hx
      · intro o ho
        by_cases hp : pid ∈ e.owners
        · rw [if_pos hp] at ho
          exact hsub o ho
        · rw [if_neg hp] at ho
          rcases List.mem_append.mp ho with h1 | h2
          · exact hsub o h1
          · have hop : o = pid := by simpa using h2
            subst hop
            exact hpid
    · rw [Bool.not_eq_true] at hk
      rw [if_neg (by rw [hk]; exact Bool.noConfusion)]
      obtain ⟨ht, hndp, hsub⟩ := hprops e he
      exact ⟨ht, hne e he hk, hndp, hsub⟩

/-- `addPoint` preserves the sentence-map invariant. -/
theorem addPoint_inv {ids : List String} {m : List SEntry} {pid pt : String}
    (hpid : pid ∈ ids) (h : SMInv ids m) : SMInv ids (addPoint m pid pt) := by
  obtain ⟨hnd, hent⟩ := h
  unfold addPoint
  dsimp only
  by_cases hany : (m.any (fun e => e.key == strToLower pt)) = true
  · rw [if_pos hany]
    refine updEntries_inv hpid hnd ?_ ?_
    · intro e he
      obtain ⟨ht, _, hndp, hsub⟩ := hent e he
      exact ⟨ht, hndp, hsub⟩
    · intro e he _
      exact (hent e he).2.1
  · rw [if_neg hany]
    refine updEntries_inv hpid ?_ ?_ ?_
    · rw [List.map_append]
      refine List.Nodup.append hnd (List.nodup_singleton _) ?_
      intro x hx hx2
      have hxk : x = strToLower pt := by simpa using hx2
      subst hxk
      obtain ⟨e, hem, hek⟩ := List.mem_map.mp hx
      exact hany (List.any_eq_true.mpr ⟨e, hem, beq_iff_eq.mpr hek⟩)
    · intro e he
      rcases List.mem_append.mp he with h1 | h2
      · obtain ⟨ht, _, hndp, hsub⟩ := hent e h1
        exact ⟨ht, hndp, hsub⟩
      · have he2 : e = ⟨strToLower pt, pt, []⟩ := by simpa using h2
        subst he2
        refine ⟨rfl, List.nodup_nil, ?_⟩
        intro o ho
        cases ho
    · intro e he hk
      rcases List.mem_append.mp he with h1 | h2
      · exact (hent e h1).2.1
      · have he2 : e = ⟨strToLower pt, pt, []⟩ := by simpa using h2
        subst he2
        rw [show ((⟨strToLower pt, pt, []⟩ : SEntry).key == strToLower pt) = true from
          beq_self_eq_true _] at hk
        cases hk

/-- The accumulated sentence map satisfies the invariant. -/
theorem buildSentenceMap_inv (al : List Aligned) :
    SMInv (al.map (fun a => a.id)) (buildSentenceMap al) := by
  unfold buildSentenceMap
  have hpts : ∀ (pts : List String) (pid : String) (m : List SEntry),
      pid ∈ al.map (fun a => a.id) → SMInv (al.map (fun a => a.id)) m →
      SMInv (al.map (fun a => a.id))
        (pts.foldl (fun m2 pt => addPoint m2 pid pt) m) := by
    intro pts
    induction pts with
    | nil => intro pid m _ h; exact h
    | cons pt pts ih =>
      intro pid m hpid h
      rw [List.foldl_cons]
      exact ih pid _ hpid (addPoint_inv hpid h)
  have hgen : ∀ (l : List Aligned) (m : List SEntry),
      (∀ a ∈ l, a.id ∈ al.map (fun a => a.id)) →
      SMInv (al.map (fun a => a.id)) m →
      SMInv (al.map (fun a => a.id))
        (l.foldl (fun m a =>
          (extractPoints (some a.text)).foldl (fun m2 pt => addPoint m2 a.id pt) m) m) := by
    intro l
    induction l with
    | nil => intro m _ h; exact h
    | cons a l ih =>
      intro m hl h
      rw [List.foldl_cons]
      exact ih _ (fun x hx => hl x (List.mem_cons_of_mem _ hx))
        (hpts _ _ _ (hl a (List.mem_cons_self _ _)) h)
  refine hgen al [] (fun a ha => List.mem_map.mpr ⟨a, ha, rfl⟩) ⟨List.nodup_nil, ?_⟩
  intro e he
  cases he

/-- Distinct sentence-map entries have distinct display texts. -/
theorem sm_texts_nodup {ids : List String} {m : List SEntry} (h : SMInv ids m) :
    (m.map (fun e => e.text)).Nodup := by
  have hmm : (m.map (fun e => e.text)).map strToLower = m.map (fun e => e.key) := by
    rw [List.map_map]
    apply List.map_congr_left
    intro e he
    exact (h.2 e he).1
  exact List.Nodup.of_map strToLower (hmm ▸ h.1)

/-!
## Claim C9 — `unique` has exactly one key per selected paper id
-/

/-- Claim C9: for every comparison result holding a papers list and
every selection, `computeDiffs` succeeds and its `unique` mapping has
pairwise-distinct keys that are exactly the string-coerced selected
paper ids (each bound to a possibly empty sequence). -/
theorem computeDiffs_unique_keys (c : CompareResult) (ps : List BackendPaper)
    (sel : List SelPaper) (hps : c.papers = PapersField.arr ps) :
    ∃ d, computeDiffs (some c) sel = Except.ok d ∧
      (d.unique.map Prod.fst).Nodup ∧
      ∀ k, k ∈ d.unique.map Prod.fst ↔ k ∈ sel.map (fun s => jsString s.id) := by
  have hcd : computeDiffs (some c) sel = Except.ok (diffsCore (alignedOf ps sel)) := by
    unfold computeDiffs
    dsimp only
    rw [hps]
  refine ⟨_, hcd, ?_, ?_⟩
  · show ((diffsCore (alignedOf ps sel)).unique.map Prod.fst).Nodup
    unfold diffsCore
    dsimp only
    rw [classify_keys]
    exact initU_nodup _ [] (by simp)
  · intro k
    show k ∈ (diffsCore (alignedOf ps sel)).unique.map Prod.fst ↔ _
    unfold diffsCore
    dsimp only
    rw [classify_keys, initU_mem_keys, alignedOf_ids]
    simp

/-- A backend entry and two selected papers, the second contributing no
points (for the C9 witness). -/
def psW9 : List BackendPaper :=
  [⟨some "1", none, some "Models improve performance significantly."⟩]

/-- The two selected papers for the C9 witness. -/
def selW9 : List SelPaper :=
  [⟨some "1", some "A", none, none, none⟩, ⟨some "2", some "B", none, none, none⟩]

/-- Witness for C9: the paper with no points still owns a key. -/
theorem computeDiffs_unique_keys_witness :
    ∃ d, computeDiffs (some ⟨.arr psW9, none, none⟩) selW9 = Except.ok d ∧
      (d.unique.map Prod.fst).Nodup ∧ "2" ∈ d.unique.map Prod.fst := by
  obtain ⟨d, hd, hnd, hiff⟩ :=
    computeDiffs_unique_keys ⟨.arr psW9, none, none⟩ psW9 selW9 rfl
  exact ⟨d, hd, hnd, (hiff "2").mpr (by decide)⟩

/-!
## Claim C1 — common/unique classification
-/

/-- The backend entry and single selected paper refuting C1 at a
one-paper selection. -/
def psC1 : List BackendPaper :=
  [⟨some "1", none, some "Models improve performance significantly."⟩]

/-- The single selected paper for the C1 counterexample. -/
def selC1 : List SelPaper := [⟨some "1", some "T", none, none, none⟩]

/-- Counterexample to C1 as stated: with one selected paper, the point's
owning-paper set is exactly `{"1"}`, yet the point lands in `common` and
`unique["1"]` stays empty — the claimed "unique iff owning set is `{P}`"
fails for selections of size one. -/
theorem computeDiffs_unique_iff_counterexample :
    computeDiffs (some ⟨.arr psC1, none, none⟩) selC1 =
      Except.ok ⟨["Models improve performance significantly."], [("1", [])]⟩ ∧
    buildSentenceMap (alignedOf psC1 selC1) =
      [⟨"models improve performance significantly.",
        "Models improve performance significantly.", ["1"]⟩] ∧
    ¬ ∃ l, objLookup [("1", ([] : List String))] "1" = some l ∧
      "Models improve performance significantly." ∈ l := by
  refine ⟨rfl, by decide, ?_⟩
  rintro ⟨l, hl, hmem⟩
  have h0 : objLookup [("1", ([] : List String))] "1" = some [] := rfl
  rw [h0] at hl
  injection hl with h
  subst h
  cases hmem

/-- Claim C1 (amended): for a comparison result holding a papers list
and a selection of at least two papers with distinct string-coerced ids,
`computeDiffs` succeeds, and for every sentence-map entry: its display
text is in `common` iff its distinct owning papers number exactly the
selection size; its display text is in `unique[P]` iff its owning-paper
set is exactly `{P}`; and entries whose owner count lies strictly
between 1 and the selection size appear in neither output.  (For a
single selected paper the code instead routes the point to `common`.) -/
theorem computeDiffs_common_unique_characterization
    (c : CompareResult) (ps : List BackendPaper) (sel : List SelPaper)
    (hps : c.papers = PapersField.arr ps)
    (hN : 2 ≤ sel.length)
    (_hids : (sel.map (fun s => jsString s.id)).Nodup) :
    ∃ d, computeDiffs (some c) sel = Except.ok d ∧
      ∀ e ∈ buildSentenceMap (alignedOf ps sel),
        (e.text ∈ d.common ↔ e.owners.length = sel.length) ∧
        (∀ P, (∃ l, objLookup d.unique P = some l ∧ e.text ∈ l) ↔ e.owners = [P]) ∧
        ((1 < e.owners.length ∧ e.owners.length < sel.length) →
          e.text ∉ d.common ∧ ∀ P l, objLookup d.unique P = some l → e.text ∉ l) := by
  have hcd : computeDiffs (some c) sel = Except.ok (diffsCore (alignedOf ps sel)) := by
    unfold computeDiffs
    dsimp only
    rw [hps]
  have halen : (alignedOf ps sel).length = sel.length := by
    unfold alignedOf
    exact List.length_map _ _
  have hinv := buildSentenceMap_inv (alignedOf ps sel)
  have htx := sm_texts_nodup hinv
  have hcommon : (diffsCore (alignedOf ps sel)).common =
      ((buildSentenceMap (alignedOf ps sel)).filter
        (fun e => e.owners.length == (alignedOf ps sel).length)).map (fun e => e.text) := by
    unfold diffsCore
    dsimp only
    rw [classify_fst, List.nil_append]
  have hlookup : ∀ P, objLookup (diffsCore (alignedOf ps sel)).unique P =
      (objLookup ((alignedOf ps sel).foldl (fun u a => objSet u a.id []) []) P).map
        (fun l => l ++ ((buildSentenceMap (alignedOf ps sel)).filter
          (uniqPred (alignedOf ps sel).length P)).map (fun e => e.text)) := by
    intro P
    unfold diffsCore
    dsimp only
    rw [classify_lookup]
  have hu0val : ∀ P l,
      objLookup ((alignedOf ps sel).foldl (fun u a => objSet u a.id []) []) P = some l →
      l = [] := by
    refine initU_values _ [] ?_
    intro P l h
    simp [objLookup] at h
  have hu0keys : ∀ P,
      (∃ l, objLookup ((alignedOf ps sel).foldl (fun u a => objSet u a.id []) []) P =
        some l) ↔ P ∈ (alignedOf ps sel).map (fun a => a.id) := by
    intro P
    rw [objLookup_isSome_iff, initU_mem_keys]
    simp
  refine ⟨_, hcd, ?_⟩
  intro e he
  obtain ⟨hekey, heown, hendup, hesub⟩ := hinv.2 e he
  have hNne1 : ¬ (1 = (alignedOf ps sel).length) := by omega
  refine ⟨?_, ?_, ?_⟩
  · -- common iff
    rw [hcommon]
    constructor
    · intro hmem
      obtain ⟨e', he'f, he't⟩ := List.mem_map.mp hmem
      have he'm := List.mem_of_mem_filter he'f
      have hee : e' = e := List.inj_on_of_nodup_map htx he'm he he't
      rw [hee] at he'f
      have := List.of_mem_filter he'f
      rw [← halen]
      simpa using this
    · intro hlen
      refine List.mem_map.mpr ⟨e, List.mem_filter.mpr ⟨he, by simpa [halen] using hlen⟩, rfl⟩
  · -- unique iff
    intro P
    constructor
    · rintro ⟨l, hl, hmem⟩
      rw [hlookup] at hl
      cases hu : objLookup ((alignedOf ps sel).foldl (fun u a => objSet u a.id []) []) P with
      | none => rw [hu] at hl; cases hl
      | some l0 =>
        rw [hu, Option.map_some'] at hl
        injection hl with hl'
        have hl0 : l0 = [] := hu0val P l0 hu
        subst hl0
        subst hl'
        rw [List.nil_append] at hmem
        obtain ⟨e', he'f, he't⟩ := List.mem_map.mp hmem
        have he'm := List.mem_of_mem_filter he'f
        have hee : e' = e := List.inj_on_of_nodup_map htx he'm he he't
        rw [hee] at he'f
        have hpred := List.of_mem_filter he'f
        unfold uniqPred at hpred
        rw [Bool.and_eq_true, Bool.and_eq_true] at hpred
        obtain ⟨⟨_, hlen1⟩, hhd⟩ := hpred
        have hlen1' : e.owners.length = 1 := by simpa using hlen1
        obtain ⟨a, ha⟩ := List.length_eq_one.mp hlen1'
        have haP : a = P := by
          have hhd' := eq_of_beq hhd
          rw [ha] at hhd'
          simpa using hhd'
        rw [ha, haP]
    · intro hP
      have hlen1 : e.owners.length = 1 := by rw [hP]; rfl
      have hPmem : P ∈ (alignedOf ps sel).map (fun a => a.id) := by
        refine hesub P ?_
        rw [hP]
        exact List.mem_cons_self _ _
      obtain ⟨l0, hl0⟩ := (hu0keys P).mpr hPmem
      have hl0e : l0 = [] := hu0val P l0 hl0
      subst hl0e
      have hpred : uniqPred (alignedOf ps sel).length P e = true := by
        unfold uniqPred
        rw [Bool.and_eq_true, Bool.and_eq_true]
        refine ⟨⟨?_, by simpa using hlen1⟩, ?_⟩
        · rw [Bool.not_eq_true', beq_eq_false_iff_ne]
          intro hcontr
          rw [hlen1] at hcontr
          exact hNne1 hcontr
        · rw [hP]
          simp
      refine ⟨(buildSentenceMap (alignedOf ps sel)).filter
          ((uniqPred (alignedOf ps sel).length P)) |>.map (fun e => e.text), ?_, ?_⟩
      · rw [hlookup, hl0, Option.map_some', List.nil_append]
      · exact List.mem_map.mpr ⟨e, List.mem_filter.mpr ⟨he, hpred⟩, rfl⟩
  · -- strictly between: neither output
    intro ⟨hgt, hlt⟩
    constructor
    · rw [hcommon]
      intro hmem
      obtain ⟨e', he'f, he't⟩ := List.mem_map.mp hmem
      have hee : e' = e := List.inj_on_of_nodup_map htx (List.mem_of_mem_filter he'f) he he't
      rw [hee] at he'f
      have hfl := List.of_mem_filter he'f
      have hlenN : e.owners.length = (alignedOf ps sel).length := by simpa using hfl
      omega
    · intro P l hl hmem
      rw [hlookup] at hl
      cases hu : objLookup ((alignedOf ps sel).foldl (fun u a => objSet u a.id []) []) P with
      | none => rw [hu] at hl; cases hl
      | some l0 =>
        rw [hu, Option.map_some'] at hl
        injection hl with hl'
        have hl0 : l0 = [] := hu0val P l0 hu
        subst hl0
        subst hl'
        rw [List.nil_append] at hmem
        obtain ⟨e', he'f, he't⟩ := List.mem_map.mp hmem
        have hee : e' = e :=
          List.inj_on_of_nodup_map htx (List.mem_of_mem_filter he'f) he he't
        rw [hee] at he'f
        have hpred := List.of_mem_filter he'f
        unfold uniqPred at hpred
        rw [Bool.and_eq_true, Bool.and_eq_true] at hpred
        obtain ⟨⟨_, hlen1⟩, _⟩ := hpred
        have hlen1' : e.owners.length = 1 := by simpa using hlen1
        omega

/-- Backend entries for the C1 witness: a shared sentence and one unique
sentence per paper. -/
def psW1 : List BackendPaper :=
  [⟨some "1", none,
    some "Models improve performance significantly. Uses transformers for the encoder stack."⟩,
   ⟨some "2", none,
    some "Models improve performance significantly. Uses convolution filters in early layers."⟩]

/-- The two selected papers for the C1 witness. -/
def selW1 : List SelPaper :=
  [⟨some "1", some "A", none, none, none⟩, ⟨some "2", some "B", none, none, none⟩]

/-- Witness for the amended C1 at two selected papers: the shared
sentence is common and the transformer sentence is unique to paper 1. -/
theorem computeDiffs_common_unique_characterization_witness :
    ∃ d, computeDiffs (some ⟨.arr psW1, none, none⟩) selW1 = Except.ok d ∧
      "Models improve performance significantly." ∈ d.common ∧
      ∃ l, objLookup d.unique "1" = some l ∧
        "Uses transformers for the encoder stack." ∈ l := by
  obtain ⟨d, hd, hall⟩ := computeDiffs_common_unique_characterization
    ⟨.arr psW1, none, none⟩ psW1 selW1 rfl (by decide) (by decide)
  have h1 := (hall ⟨"models improve performance significantly.",
      "Models improve performance significantly.", ["1", "2"]⟩ (by decide)).1.mpr (by decide)
  have h2 := ((hall ⟨"uses transformers for the encoder stack.",
      "Uses transformers for the encoder stack.", ["1"]⟩ (by decide)).2.1 "1").mpr (by decide)
  exact ⟨d, hd, h1, h2⟩

/-!
## Claim C6 — per-paper text resolution
-/

/-- The claim's resolution, transcribed: the matching backend summary
when present; when the backend summary is absent, the paper's own
abstract; when that is absent, the paper's own summary field; otherwise
the empty string. -/
def claimResolveC6 (ps : List BackendPaper) (s : SelPaper) : String :=
  match (ps.find? (fun p => backendCoercedId p == jsString s.id)).bind
      (fun p => p.summary) with
  | some t => t
  | none =>
    match s.abstract with
    | some a => a
    | none => s.summary.getD ""

/-- The code's resolution, per the amended claim: a matching backend
entry always wins, its summary coerced to the empty string when falsy,
with no fallback to the paper's fields; only when no entry matches does
the paper's truthy abstract, then truthy summary, then empty string
apply. -/
def codeResolveC6 (ps : List BackendPaper) (s : SelPaper) : String :=
  match ps.find? (fun p => backendCoercedId p == jsString s.id) with
  | some p => if truthyS p.summary then p.summary.getD "" else ""
  | none =>
    if truthyS s.abstract then s.abstract.getD ""
    else if truthyS s.summary then s.summary.getD "" else ""

/-- The backend entry (no summary) and selected paper (with abstract)
refuting C6. -/
def psC6 : List BackendPaper := [⟨some "1", none, none⟩]

/-- The selected paper for the C6 counterexample. -/
def sC6 : SelPaper :=
  ⟨some "1", some "T", none,
    some "An abstract that is clearly longer than twenty characters.", none⟩

/-- Counterexample to C6 as stated: the backend entry matches by id but
carries no summary, so the claim's resolution yields the abstract while
the code resolves to the empty string (and the abstract's sentence
reaches neither `common` nor `unique`). -/
theorem computeDiffs_text_resolution_counterexample :
    ((alignedOf psC6 [sC6]).map (fun a => a.text)) = [""] ∧
    claimResolveC6 psC6 sC6 =
      "An abstract that is clearly longer than twenty characters." ∧
    ¬ ((alignedOf psC6 [sC6]).map (fun a => a.text)) =
      [claimResolveC6 psC6 sC6] ∧
    computeDiffs (some ⟨.arr psC6, none, none⟩) [sC6] =
      Except.ok ⟨[], [("1", [])]⟩ := by
  exact ⟨rfl, rfl, by decide, rfl⟩

/-- Claim C6 (amended): the texts `computeDiffs` aligns per selected
paper are exactly those of `codeResolveC6` — a matching backend entry
always wins (empty string when its summary is falsy), and the
abstract/summary fallbacks apply only when no backend entry matches. -/
theorem computeDiffs_text_resolution_amended (ps : List BackendPaper)
    (sel : List SelPaper) :
    (alignedOf ps sel).map (fun a => a.text) = sel.map (codeResolveC6 ps) := by
  unfold alignedOf
  rw [List.map_map]
  apply List.map_congr_left
  intro s _
  simp only [Function.comp_apply]
  have hfind : (perOf ps).find? (fun x => x.1 == jsString s.id) =
      (ps.find? (fun p => backendCoercedId p == jsString s.id)).map
        (fun p => (backendCoercedId p, (jsOrS p.summary (some "")).getD "")) := by
    unfold perOf
    rw [List.find?_map]
    rfl
  rw [hfind]
  unfold codeResolveC6
  cases hp : ps.find? (fun p => backendCoercedId p == jsString s.id) with
  | some p =>
    show (jsOrS p.summary (some "")).getD "" =
      if truthyS p.summary then p.summary.getD "" else ""
    unfold jsOrS
    by_cases ht : truthyS p.summary = true
    · rw [if_pos ht, if_pos ht]
    · rw [if_neg ht, if_neg ht]
      rfl
  | none =>
    show (jsOrS s.abstract (jsOrS s.summary (some ""))).getD "" =
      if truthyS s.abstract then s.abstract.getD ""
      else if truthyS s.summary then s.summary.getD "" else ""
    unfold jsOrS
    by_cases ha : truthyS s.abstract = true
    · rw [if_pos ha, if_pos ha]
    · rw [if_neg ha, if_neg ha]
      by_cases hs : truthyS s.summary = true
      · rw [if_pos hs, if_pos hs]
      · rw [if_neg hs, if_neg hs]
        rfl
